import Mathlib

/-!
Verification of the sortersocial/index core against its specification.

This file shallowly embeds the relevant parts of the Python source:

* `src/reducer.py`  — the semantic reducer (`Reducer.process_document` and the
  per-statement handlers), embedded as pure state-passing functions.
* `src/storage.py`  — the append-only log (`save_email`, `parse_email_file`,
  `stream_history`, `get_email`), embedded over an abstract file system.
* `src/main.py`     — the webhook handler's control flow around `save_email`
  and the reducer, including Python call binding for keyword arguments.
* `src/rank.py`     — `rank_centrality`, `tarjans_scc` and
  `compute_rankings_from_state`, with real arithmetic embedded as exact
  rationals (`ℚ`).

Machine reals (numpy floats) are modelled by `ℚ`; Python `dict`s by
insertion-ordered association lists; Python `set`s by duplicate-free lists.
-/

/-! ## Reducer data model (src/reducer.py) -/

/-- Statements of a parsed `Document` (src/parser.py).  The Lark transformer
produces `Hashtag`, `Item`, `Vote`, `Email` dataclasses and plain Python lists
of `Attribute` for `attribute_decl`.  Ratios are naturals because the grammar
terminal `NUMBER` is `[0-9]+` (and the `>`/`<`/`=` comparisons produce 2, 1, 1
as literals), so the parser can only produce non-negative integers. -/
inductive Stmt where
  | hashtag (name : String)
  | item (title : String) (body : Option String)
  | attrs (names : List String)
  | vote (item1 item2 : String) (ratioLeft ratioRight : Nat) (explanation : Option String)
  | email (address : String)
deriving DecidableEq

/-- ItemRecord dataclass (src/reducer.py lines 18-26).  The Python `Set[str]`
of hashtags is modelled as a duplicate-free list (`addHashtag` below inserts
only when absent, mirroring `set.add`). -/
structure ItemRecord where
  title : String
  body : Option String
  hashtags : List String
  created_by : Option String
  timestamp : Option String
deriving DecidableEq

/-- VoteRecord dataclass (src/reducer.py lines 29-41).  The Python field
`attribute` is a Lean keyword, so it is named `attr` here. -/
structure VoteRecord where
  item1 : String
  item2 : String
  ratio_left : Nat
  ratio_right : Nat
  attr : Option String
  explanation : Option String
  user_email : Option String
  timestamp : Option String
  source_filename : Option String
deriving DecidableEq

/-- State dataclass (src/reducer.py lines 44-50).  `items` is a Python dict,
modelled as an insertion-ordered association list with distinct keys. -/
structure State where
  items : List (String × ItemRecord)
  votes : List VoteRecord
  emails : List String
deriving DecidableEq

/-- The empty state (`State()` with default factories). -/
def State.empty : State := ⟨[], [], []⟩

/-- Submission envelope: the `timestamp`, `user_email`, `source_filename`
arguments of `Reducer.process_document`. -/
structure Envelope where
  timestamp : Option String
  user_email : Option String
  source_filename : Option String
deriving DecidableEq

/-- Per-document transient context of the reducer (`current_hashtag`,
`current_attribute`), reset at each `process_document`. -/
structure Ctx where
  currentHashtag : Option String
  currentAttribute : Option String
deriving DecidableEq

/-- Semantic errors raised by the reducer (all surfaced as Python
`ParseError`; distinguished here by the condition that raises them). -/
inductive SemErr where
  | missingHashtagContext
  | immutableBody
  | missingAttributeContext
  | unknownItem (title : String)
  | zeroNum
deriving DecidableEq

/-- Python truthiness of an optional string (`if item.body:`): `None` and the
empty string are falsy. -/
def strOptTruthy : Option String → Bool
  | none => false
  | some s => s ≠ ""

/-- Lookup in the insertion-ordered association list that models the `items`
dict (`item.title in self.state.items` / `self.state.items[title]`). -/
def lookupItem : List (String × ItemRecord) → String → Option ItemRecord
  | [], _ => none
  | p :: rest, t => if p.1 = t then some p.2 else lookupItem rest t

/-- Model of `set.add` on the hashtag list of the item stored under `t`
(src/reducer.py line 132: `self.state.items[item.title].hashtags.add(...)`). -/
def addHashtag (items : List (String × ItemRecord)) (t h : String) :
    List (String × ItemRecord) :=
  items.map fun p =>
    if p.1 = t then
      (p.1, { p.2 with hashtags := if h ∈ p.2.hashtags then p.2.hashtags else p.2.hashtags ++ [h] })
    else p

/-- One statement of `Reducer.process_document`'s dispatch loop
(src/reducer.py lines 87-106) together with the per-statement handlers
`_process_hashtag`, `_process_item`, `_process_attributes`, `_process_vote`,
`_process_email` (lines 108-205).  Returns the updated context and state, or
the semantic error raised.  A raising handler performs no mutation first, as
in the source (all `raise` sites precede the mutations). -/
def processStatement (env : Envelope) (ctx : Ctx) (st : State) :
    Stmt → Except SemErr (Ctx × State)
  | .hashtag n => .ok ({ ctx with currentHashtag := some n }, st)
  | .item t b =>
    match ctx.currentHashtag with
    | none => .error .missingHashtagContext
    | some h =>
      match lookupItem st.items t with
      | some _ =>
        -- redeclaration: `if item.body:` raises; else cross-tag
        if strOptTruthy b then .error .immutableBody
        else .ok (ctx, { st with items := addHashtag st.items t h })
      | none =>
        .ok (ctx, { st with items := st.items ++
          [(t, ⟨t, b, [h], env.user_email, env.timestamp⟩)] })
  | .attrs names =>
    -- `if attributes: self.current_attribute = attributes[-1].name`
    match names.getLast? with
    | none => .ok (ctx, st)
    | some a => .ok ({ ctx with currentAttribute := some a }, st)
  | .vote i1 i2 rl rr ex =>
    match ctx.currentAttribute with
    | none => .error .missingAttributeContext
    | some attr =>
      if (lookupItem st.items i1).isNone then .error (.unknownItem i1)
      else if (lookupItem st.items i2).isNone then .error (.unknownItem i2)
      else if rl = 0 ∨ rr = 0 then .error .zeroNum
      else .ok (ctx, { st with votes := st.votes ++
        [⟨i1, i2, rl, rr, some attr, ex, env.user_email, env.timestamp, env.source_filename⟩] })
  | .email a =>
    .ok (ctx, if a ∈ st.emails then st else { st with emails := st.emails ++ [a] })

/-- The statement loop of `process_document`.  The Python reducer mutates
`self.state` in place and lets the exception propagate, so on error the
returned state is the state reached so far (mutations of earlier statements
are kept); the returned context is the context at the failing statement. -/
def processStatements (env : Envelope) :
    Ctx → State → List Stmt → Ctx × State × Option SemErr
  | ctx, st, [] => (ctx, st, none)
  | ctx, st, s :: rest =>
    match processStatement env ctx st s with
    | .error e => (ctx, st, some e)
    | .ok (ctx', st') => processStatements env ctx' st' rest

/-- `Reducer.process_document` (src/reducer.py lines 63-106): resets the
per-document context, then folds the statements.  Returns the state owned by
the reducer after the call (partially mutated on error) and the error, if
any.  The `if statement is None: continue` guard is a no-op here because the
embedded statement type has no `None` constructor (the transformer filters
`None` out). -/
def process_document (env : Envelope) (st : State) (stmts : List Stmt) :
    State × Option SemErr :=
  let r := processStatements env ⟨none, none⟩ st stmts
  (r.2.1, r.2.2)

/-- Repeated live ingestion / replay: fold a sequence of documents from the
empty state, keeping the (possibly partially mutated) state of failing
documents, as `lifespan` in src/main.py does during replay (errors are
counted but the shared reducer keeps its state). -/
def processDocuments (docs : List (Envelope × List Stmt)) : State :=
  docs.foldl (fun st d => (process_document d.1 st d.2).1) State.empty

/-! ## Reducer lemmas -/

theorem lookupItem_isSome_iff (items : List (String × ItemRecord)) (x : String) :
    (lookupItem items x).isSome ↔ x ∈ items.map Prod.fst := by
  induction items with
  | nil => simp [lookupItem]
  | cons p rest ih =>
    by_cases hp : p.1 = x
    · simp [lookupItem, hp]
    · simp only [lookupItem, hp, if_false, List.map_cons, List.mem_cons, ih]
      constructor
      · exact Or.inr
      · rintro (h | h)
        · exact absurd h.symm hp
        · exact h

theorem addHashtag_keys (items : List (String × ItemRecord)) (t h : String) :
    (addHashtag items t h).map Prod.fst = items.map Prod.fst := by
  induction items with
  | nil => rfl
  | cons p rest ih =>
    by_cases hp : p.1 = t <;> simp [addHashtag, hp] <;>
      simpa [addHashtag] using ih

theorem lookupItem_append_isSome (items ex : List (String × ItemRecord)) (t : String)
    (h : (lookupItem items t).isSome) : (lookupItem (items ++ ex) t).isSome := by
  rw [lookupItem_isSome_iff] at h ⊢
  rw [List.map_append]
  exact List.mem_append_left _ h

theorem lookupItem_addHashtag_isSome (items : List (String × ItemRecord)) (t h x : String)
    (hx : (lookupItem items x).isSome) :
    (lookupItem (addHashtag items t h) x).isSome := by
  rw [lookupItem_isSome_iff] at hx ⊢
  rwa [addHashtag_keys]

/-- Keys of `items` only ever gain entries: a title present before a
statement is still present after it (items are never deleted). -/
theorem processStatement_items_mono (env : Envelope) (ctx : Ctx) (st : State)
    (s : Stmt) (ctx' : Ctx) (st' : State)
    (h : processStatement env ctx st s = .ok (ctx', st'))
    (t : String) (ht : (lookupItem st.items t).isSome) :
    (lookupItem st'.items t).isSome := by
  cases s with
  | hashtag n =>
    simp only [processStatement, Except.ok.injEq, Prod.mk.injEq] at h
    rw [← h.2]
    exact ht
  | item ti b =>
    cases hh : ctx.currentHashtag with
    | none => simp [processStatement, hh] at h
    | some hsh =>
      cases hl : lookupItem st.items ti with
      | some rec =>
        by_cases hb : strOptTruthy b = true
        · simp [processStatement, hh, hl, hb] at h
        · rw [Bool.not_eq_true] at hb
          simp only [processStatement, hh, hl, hb, Bool.false_eq_true, if_false,
            Except.ok.injEq, Prod.mk.injEq] at h
          rw [← h.2]
          exact lookupItem_addHashtag_isSome st.items ti hsh t ht
      | none =>
        simp only [processStatement, hh, hl, Except.ok.injEq, Prod.mk.injEq] at h
        rw [← h.2]
        exact lookupItem_append_isSome st.items _ t ht
  | attrs names =>
    cases hn : names.getLast? <;>
      · simp only [processStatement, hn, Except.ok.injEq, Prod.mk.injEq] at h
        rw [← h.2]
        exact ht
  | vote i1 i2 rl rr ex =>
    cases hh : ctx.currentAttribute with
    | none => simp [processStatement, hh] at h
    | some attr =>
      by_cases h1 : (lookupItem st.items i1).isNone
      · simp [processStatement, hh, h1] at h
      · by_cases h2 : (lookupItem st.items i2).isNone
        · simp [processStatement, hh, h1, h2] at h
        · by_cases hz : rl = 0 ∨ rr = 0
          · simp [processStatement, hh, h1, h2, hz] at h
          · simp only [processStatement, hh, h1, h2, hz, if_false, Bool.false_eq_true,
              Except.ok.injEq, Prod.mk.injEq] at h
            rw [← h.2]
            exact ht
  | email a =>
    simp only [processStatement, Except.ok.injEq, Prod.mk.injEq] at h
    rw [← h.2]
    by_cases he : a ∈ st.emails
    · simpa [he] using ht
    · simpa [he] using ht

/-- Structural effect of one successful statement: either the votes are
unchanged and item keys only grow, or the items are unchanged and exactly one
vote — validated against the current items — is appended. -/
theorem processStatement_ok_shape (env : Envelope) (ctx : Ctx) (st : State)
    (s : Stmt) (ctx' : Ctx) (st' : State)
    (h : processStatement env ctx st s = .ok (ctx', st')) :
    (st'.votes = st.votes ∧
      ∀ t, (lookupItem st.items t).isSome → (lookupItem st'.items t).isSome) ∨
    (st'.items = st.items ∧ ∃ nv, st'.votes = st.votes ++ [nv] ∧
      (lookupItem st.items nv.item1).isSome ∧ (lookupItem st.items nv.item2).isSome ∧
      0 < nv.ratio_left ∧ 0 < nv.ratio_right ∧ nv.attr ≠ none) := by
  cases s with
  | hashtag n =>
    left
    simp only [processStatement, Except.ok.injEq, Prod.mk.injEq] at h
    rw [← h.2]
    exact ⟨rfl, fun t ht => ht⟩
  | item ti b =>
    left
    cases hh : ctx.currentHashtag with
    | none => simp [processStatement, hh] at h
    | some hsh =>
      cases hl : lookupItem st.items ti with
      | some rec =>
        by_cases hb : strOptTruthy b = true
        · simp [processStatement, hh, hl, hb] at h
        · rw [Bool.not_eq_true] at hb
          simp only [processStatement, hh, hl, hb, Bool.false_eq_true, if_false,
            Except.ok.injEq, Prod.mk.injEq] at h
          rw [← h.2]
          exact ⟨rfl, fun t ht => lookupItem_addHashtag_isSome st.items ti hsh t ht⟩
      | none =>
        simp only [processStatement, hh, hl, Except.ok.injEq, Prod.mk.injEq] at h
        rw [← h.2]
        exact ⟨rfl, fun t ht => lookupItem_append_isSome st.items _ t ht⟩
  | attrs names =>
    left
    cases hn : names.getLast? <;>
      · simp only [processStatement, hn, Except.ok.injEq, Prod.mk.injEq] at h
        rw [← h.2]
        exact ⟨rfl, fun t ht => ht⟩
  | vote i1 i2 rl rr ex =>
    cases hh : ctx.currentAttribute with
    | none => simp [processStatement, hh] at h
    | some attr =>
      by_cases h1 : (lookupItem st.items i1).isNone
      · simp [processStatement, hh, h1] at h
      · by_cases h2 : (lookupItem st.items i2).isNone
        · simp [processStatement, hh, h1, h2] at h
        · by_cases hz : rl = 0 ∨ rr = 0
          · simp [processStatement, hh, h1, h2, hz] at h
          · right
            simp only [processStatement, hh, h1, h2, hz, if_false, Bool.false_eq_true,
              Except.ok.injEq, Prod.mk.injEq] at h
            push_neg at hz
            rw [← h.2]
            refine ⟨rfl, ⟨i1, i2, rl, rr, some attr, ex, env.user_email,
              env.timestamp, env.source_filename⟩, rfl, ?_, ?_, ?_, ?_, ?_⟩
            · exact Option.isSome_iff_ne_none.mpr
                (fun hn => h1 (Option.isNone_iff_eq_none.mpr hn))
            · exact Option.isSome_iff_ne_none.mpr
                (fun hn => h2 (Option.isNone_iff_eq_none.mpr hn))
            · exact Nat.pos_of_ne_zero hz.1
            · exact Nat.pos_of_ne_zero hz.2
            · simp
  | email a =>
    left
    simp only [processStatement, Except.ok.injEq, Prod.mk.injEq] at h
    rw [← h.2]
    by_cases he : a ∈ st.emails <;> simp [he]

/-- The vote integrity invariant: every recorded vote references two existing
items, has strictly positive ratios and a non-null attribute. -/
def VotesOK (st : State) : Prop :=
  ∀ v ∈ st.votes, (lookupItem st.items v.item1).isSome ∧
    (lookupItem st.items v.item2).isSome ∧
    0 < v.ratio_left ∧ 0 < v.ratio_right ∧ v.attr ≠ none

theorem processStatement_votesOK (env : Envelope) (ctx : Ctx) (st : State)
    (s : Stmt) (ctx' : Ctx) (st' : State)
    (h : processStatement env ctx st s = .ok (ctx', st'))
    (hv : VotesOK st) : VotesOK st' := by
  rcases processStatement_ok_shape env ctx st s ctx' st' h with
    ⟨hvotes, hmono⟩ | ⟨hitems, nv, hvotes, hnv⟩
  · intro v hvmem
    rw [hvotes] at hvmem
    obtain ⟨m1, m2, r1, r2, ha⟩ := hv v hvmem
    exact ⟨hmono _ m1, hmono _ m2, r1, r2, ha⟩
  · intro v hvmem
    rw [hvotes] at hvmem
    rcases List.mem_append.mp hvmem with hold | hnew
    · obtain ⟨m1, m2, r1, r2, ha⟩ := hv v hold
      rw [hitems]
      exact ⟨m1, m2, r1, r2, ha⟩
    · rw [List.mem_singleton] at hnew
      subst hnew
      rw [hitems]
      exact hnv
  
theorem processStatements_votesOK (env : Envelope) :
    ∀ (stmts : List Stmt) (ctx : Ctx) (st : State), VotesOK st →
      VotesOK (processStatements env ctx st stmts).2.1 := by
  intro stmts
  induction stmts with
  | nil => intro ctx st hv; exact hv
  | cons s rest ih =>
    intro ctx st hv
    cases hps : processStatement env ctx st s with
    | error e => simpa [processStatements, hps] using hv
    | ok p =>
      have := processStatement_votesOK env ctx st s p.1 p.2 (by rw [hps]) hv
      simpa [processStatements, hps] using ih p.1 p.2 this

theorem processDocuments_votesOK_aux :
    ∀ (docs : List (Envelope × List Stmt)) (st : State), VotesOK st →
      VotesOK (docs.foldl (fun st d => (process_document d.1 st d.2).1) st) := by
  intro docs
  induction docs with
  | nil => intro st hv; exact hv
  | cons d rest ih =>
    intro st hv
    exact ih _ (processStatements_votesOK d.1 d.2 ⟨none, none⟩ st hv)

/-- C10: every vote in any state reachable from the empty state references
two existing items, has positive ratios and a non-null attribute; documents
that raise keep their pre-error mutations but those too preserve the
invariant. -/
theorem C10_vote_referential_integrity (docs : List (Envelope × List Stmt))
    (v : VoteRecord) (hv : v ∈ (processDocuments docs).votes) :
    (lookupItem (processDocuments docs).items v.item1).isSome ∧
    (lookupItem (processDocuments docs).items v.item2).isSome ∧
    0 < v.ratio_left ∧ 0 < v.ratio_right ∧ v.attr ≠ none :=
  processDocuments_votesOK_aux docs State.empty (fun _ hmem => absurd hmem (by simp [State.empty]))
    v hv

theorem C10_vote_referential_integrity_witness :
    (⟨"a", "b", 1, 1, some "q", none, some "u@e", some "1", none⟩ : VoteRecord) ∈
      (processDocuments [(⟨some "1", some "u@e", none⟩,
        [.hashtag "h", .item "a" none, .item "b" none, .attrs ["q"],
         .vote "a" "b" 1 1 none])]).votes ∧
    (0:Nat) < 1 :=
  ⟨by decide, (C10_vote_referential_integrity
      [(⟨some "1", some "u@e", none⟩,
        [.hashtag "h", .item "a" none, .item "b" none, .attrs ["q"],
         .vote "a" "b" 1 1 none])]
      ⟨"a", "b", 1, 1, some "q", none, some "u@e", some "1", none⟩ (by decide)).2.2.1⟩

/-- On a semantic error, `processStatements` stops at the first failing
statement: the returned state and context are exactly those reached by
successfully processing the preceding statements, and the failing statement
itself raised without mutating anything. -/
theorem processStatements_error_split (env : Envelope) :
    ∀ (stmts : List Stmt) (ctx : Ctx) (st : State) (ctx' : Ctx) (st' : State) (e : SemErr),
    processStatements env ctx st stmts = (ctx', st', some e) →
    ∃ l1 s l2, stmts = l1 ++ s :: l2 ∧
      processStatements env ctx st l1 = (ctx', st', none) ∧
      processStatement env ctx' st' s = .error e := by
  intro stmts
  induction stmts with
  | nil =>
    intro ctx st ctx' st' e h
    simp [processStatements] at h
  | cons s rest ih =>
    intro ctx st ctx' st' e h
    cases hps : processStatement env ctx st s with
    | error e0 =>
      simp only [processStatements, hps, Prod.mk.injEq, Option.some.injEq] at h
      obtain ⟨hc, hs, he⟩ := h
      subst hc hs he
      exact ⟨[], s, rest, rfl, rfl, hps⟩
    | ok p =>
      simp only [processStatements, hps] at h
      obtain ⟨l1, s1, l2, hsplit, hpre, hfail⟩ := ih p.1 p.2 ctx' st' e h
      refine ⟨s :: l1, s1, l2, by rw [hsplit, List.cons_append], ?_, hfail⟩
      simpa [processStatements, hps] using hpre

/-- C1 counterexample: a document whose third statement raises
`ImmutableBody` after its second statement inserted a fresh item.  The state
after the failed `process_document` differs from the pre-call state: the item
`x` inserted by the earlier statement of the same document survives. -/
theorem C1_failed_document_mutates_state :
    (process_document ⟨some "1", some "u@e", none⟩
        ⟨[("y", ⟨"y", some "b", ["h"], some "u@e", some "1"⟩)], [], []⟩
        [.hashtag "h", .item "x" none, .item "y" (some "c")]).2
      = some SemErr.immutableBody ∧
    (process_document ⟨some "1", some "u@e", none⟩
        ⟨[("y", ⟨"y", some "b", ["h"], some "u@e", some "1"⟩)], [], []⟩
        [.hashtag "h", .item "x" none, .item "y" (some "c")]).1
      ≠ ⟨[("y", ⟨"y", some "b", ["h"], some "u@e", some "1"⟩)], [], []⟩ := by
  constructor
  · decide
  · decide

/-- C1 (amended): a failing `process_document` aborts at the first failing
statement, but the mutations of the statements before it survive: the
post-call state is exactly the state obtained by successfully processing the
prefix of statements preceding the failing one (it equals the pre-call state
only when that prefix mutated nothing). -/
theorem C1_failure_keeps_prefix_mutations (env : Envelope) (S : State)
    (stmts : List Stmt) (e : SemErr)
    (h : (process_document env S stmts).2 = some e) :
    ∃ l1 s l2 ctx', stmts = l1 ++ s :: l2 ∧
      processStatements env ⟨none, none⟩ S l1 = (ctx', (process_document env S stmts).1, none) ∧
      processStatement env ctx' (process_document env S stmts).1 s = .error e := by
  have hfull : processStatements env ⟨none, none⟩ S stmts =
      ((processStatements env ⟨none, none⟩ S stmts).1,
       (process_document env S stmts).1, some e) := by
    rw [← h]
    rfl
  obtain ⟨l1, s, l2, hsplit, hpre, hfail⟩ :=
    processStatements_error_split env stmts ⟨none, none⟩ S _ _ e hfull
  exact ⟨l1, s, l2, _, hsplit, hpre, hfail⟩

theorem C1_failure_keeps_prefix_mutations_witness :
    (process_document ⟨none, none, none⟩ ⟨[], [], []⟩ [Stmt.item "x" none]).2
      = some SemErr.missingHashtagContext ∧
    (∃ l1 s l2 ctx',
      [Stmt.item "x" none] = l1 ++ s :: l2 ∧
      processStatements ⟨none, none, none⟩ ⟨none, none⟩ ⟨[], [], []⟩ l1 =
        (ctx', (process_document ⟨none, none, none⟩ ⟨[], [], []⟩ [Stmt.item "x" none]).1, none) ∧
      processStatement ⟨none, none, none⟩ ctx'
        (process_document ⟨none, none, none⟩ ⟨[], [], []⟩ [Stmt.item "x" none]).1 s =
        .error SemErr.missingHashtagContext) :=
  ⟨by decide, C1_failure_keeps_prefix_mutations ⟨none, none, none⟩ ⟨[], [], []⟩
    [Stmt.item "x" none] SemErr.missingHashtagContext (by decide)⟩

/-- C4 counterexample: item `x` exists with an absent stored body, yet
redeclaring it with a body under a hashtag raises `ImmutableBody` (and does
not add the hashtag), contradicting the claim that the failure happens only
when the stored body is present. -/
theorem C4_absent_stored_body_still_fails :
    process_document ⟨some "1", some "u@e", none⟩
        ⟨[("x", ⟨"x", none, ["h"], some "u@e", some "1"⟩)], [], []⟩
        [.hashtag "g", .item "x" (some "b")]
      = (⟨[("x", ⟨"x", none, ["h"], some "u@e", some "1"⟩)], [], []⟩,
         some SemErr.immutableBody) := by
  decide

/-- C4 (amended): redeclaring an existing item under a hashtag context fails
`ImmutableBody` exactly when the incoming body is present (non-empty), no
matter what the stored body is; with an absent or empty incoming body the
redeclaration succeeds and adds the current hashtag to the stored item. -/
theorem C4_immutable_body_tests_new_body_only (env : Envelope) (ctx : Ctx)
    (st : State) (t h : String) (b : Option String) (rec : ItemRecord)
    (hh : ctx.currentHashtag = some h) (hl : lookupItem st.items t = some rec) :
    (strOptTruthy b = true →
      processStatement env ctx st (.item t b) = .error .immutableBody) ∧
    (strOptTruthy b = false →
      processStatement env ctx st (.item t b) =
        .ok (ctx, { st with items := addHashtag st.items t h })) := by
  constructor
  · intro hb
    simp [processStatement, hh, hl, hb]
  · intro hb
    simp [processStatement, hh, hl, hb]

theorem C4_immutable_body_tests_new_body_only_witness :
    ((⟨some "h", none⟩ : Ctx).currentHashtag = some "h" ∧
     lookupItem [("x", ⟨"x", none, ["h2"], none, none⟩)] "x" =
       some ⟨"x", none, ["h2"], none, none⟩) ∧
    processStatement ⟨none, none, none⟩ ⟨some "h", none⟩
        ⟨[("x", ⟨"x", none, ["h2"], none, none⟩)], [], []⟩ (.item "x" (some "b"))
      = .error .immutableBody :=
  ⟨⟨rfl, by decide⟩,
    (C4_immutable_body_tests_new_body_only ⟨none, none, none⟩ ⟨some "h", none⟩
      ⟨[("x", ⟨"x", none, ["h2"], none, none⟩)], [], []⟩ "x" "h" (some "b")
      ⟨"x", none, ["h2"], none, none⟩ rfl (by decide)).1 (by decide)⟩

/-! ## Storage model (src/storage.py)

String primitives are implemented over `List Char` so that every definition
reduces in the kernel; they mirror the Python string operations used by the
source (`split("\n")`, `strip`, `startswith`, slicing, `"\n".join`). -/

/-- Python `s.split(c)` for a single-character separator, over chars. -/
def splitOnChar (sep : Char) : List Char → List (List Char)
  | [] => [[]]
  | c :: rest =>
    match splitOnChar sep rest with
    | [] => [[]]
    | l :: ls => if c = sep then [] :: l :: ls else (c :: l) :: ls

/-- Whitespace as stripped by Python `str.strip()` (the characters that occur
in this data). -/
def isPySpace (c : Char) : Bool := c = ' ' || c = '\t' || c = '\n' || c = '\r'

/-- Python `str.strip()`. -/
def pyStrip (cs : List Char) : List Char :=
  ((cs.dropWhile isPySpace).reverse.dropWhile isPySpace).reverse

/-- Python `"\n".join(lines)`. -/
def joinLines : List (List Char) → List Char
  | [] => []
  | [l] => l
  | l :: ls => l ++ '\n' :: joinLines ls

/-- Python string comparison (`<` on code points), used by `sorted`. -/
def charListLt : List Char → List Char → Bool
  | [], [] => false
  | [], _ :: _ => true
  | _ :: _, [] => false
  | a :: as, b :: bs =>
    if a.toNat < b.toNat then true
    else if b.toNat < a.toNat then false
    else charListLt as bs

def pyStrLt (a b : String) : Bool := charListLt a.data b.data

/-- Stable insertion of `x` before the first element `y` with `le x y`.
Together with `stableSort` this models Python's stable `sorted`. -/
def insertLe (le : α → α → Bool) (x : α) : List α → List α
  | [] => [x]
  | y :: ys => if le x y then x :: y :: ys else y :: insertLe le x ys

/-- Stable sort (Python `sorted`): equal elements keep their input order. -/
def stableSort (le : α → α → Bool) (l : List α) : List α :=
  l.foldr (insertLe le) []

/-- Python `sorted` on strings (ascending code-point order). -/
def sortStrings (l : List String) : List String :=
  stableSort (fun a b => !(pyStrLt b a)) l

/-- Python `s.endswith(suffix)`. -/
def pyEndsWith (s suffix : String) : Bool := suffix.data.isSuffixOf s.data

/-- `parse_email_file` (src/storage.py lines 57-94): split a `.sorter` file
into `(body, from_email, timestamp)`.  No `---` separator means a legacy
body-only file.  The header loop reassigns on every match, so the last
matching header line wins, as in the Python loop. -/
def parse_email_file (content : String) : String × Option String × Option String :=
  let lines := splitOnChar '\n' content.data
  match lines.findIdx? (fun l => pyStrip l = "---".data) with
  | none => (content, none, none)
  | some i =>
    let hdr := lines.take i
    let fromE := hdr.foldl
      (fun acc l => if "From: ".data.isPrefixOf l then some (String.mk (pyStrip (l.drop 6))) else acc)
      none
    let ts := hdr.foldl
      (fun acc l =>
        if "Timestamp: ".data.isPrefixOf l then some (String.mk (pyStrip (l.drop 11))) else acc)
      none
    (String.mk (joinLines (lines.drop (i + 1))), fromE, ts)

/-- `stream_history` (src/storage.py lines 97-112) over an abstract data
directory (a listing of `(filename, content)` pairs): glob the `*.sorter`
files, sort by filename, and yield `parse_email_file` of each content.  Each
yielded value is a triple — no filename component. -/
def stream_history (dir : List (String × String)) :
    List (String × Option String × Option String) :=
  let names := (dir.map Prod.fst).filter (fun n => pyEndsWith n ".sorter")
  (sortStrings names).map (fun n => parse_email_file ((dir.lookup n).getD ""))

/-- A Python tuple of string-or-None values, for modelling iterable
unpacking. -/
def pyTuple3 (e : String × Option String × Option String) : List (Option String) :=
  [some e.1, e.2.1, e.2.2]

/-- Python unpacking `a, b, c, d = t`: raises `ValueError` unless the
iterable has exactly four values. -/
def unpack4 (t : List (Option String)) :
    Except String (Option String × Option String × Option String × Option String) :=
  match t with
  | [a, b, c, d] => .ok (a, b, c, d)
  | _ => .error "ValueError: not enough values to unpack (expected 4)"

/-- The startup replay loop of `lifespan` (src/main.py line 90):
`for body, from_email, timestamp, filename in storage.stream_history()`
unpacks each yielded tuple into four names. -/
def lifespan_replay_unpacks (dir : List (String × String)) :
    List (Except String (Option String × Option String × Option String × Option String)) :=
  (stream_history dir).map (fun e => unpack4 (pyTuple3 e))

/-! ## Path model for get_email (src/storage.py lines 134-149)

Paths are lists of segments relative to the process working directory.
`DATA_DIR / filename` is modelled for relative filenames (the pathlib `/`
operator concatenates parts without normalizing `..`);
`Path.is_relative_to` is a purely lexical prefix test on parts, and only the
file system itself (`exists()` / `read_text()`) sees the `..`-resolved
path. -/

/-- Segments of a relative filename, as pathlib parts (empty and `.`
segments are dropped, `..` is kept). -/
def splitPath (s : String) : List String :=
  ((splitOnChar '/' s.data).map String.mk).filter (fun seg => seg ≠ "" && seg ≠ ".")

/-- `DATA_DIR = Path(os.getenv("DATA_DIR", "data"))` with the default. -/
def DATA_DIR : List String := ["data"]

/-- Resolution performed by the operating system when a path is opened:
`..` pops the last segment.  `Path.is_relative_to` does NOT do this. -/
def resolvePath (p : List String) : List String :=
  p.foldl (fun acc seg => if seg = ".." then acc.dropLast else acc ++ [seg]) []

/-- pathlib `PurePath.suffix`: the extension from the last dot of the final
component, empty for no dot, a leading dot (hidden file) or a trailing
dot. -/
def pySuffixAux : List Char → Option (List Char)
  | [] => none
  | c :: rest =>
    match pySuffixAux rest with
    | some s => some s
    | none => if c = '.' && rest ≠ [] then some (c :: rest) else none

def pySuffix (name : String) : String :=
  match name.data with
  | [] => ""
  | _ :: rest =>
    match pySuffixAux rest with
    | some s => String.mk s
    | none => ""

/-- `get_email` (src/storage.py lines 134-149) over an abstract file system
keyed by resolved paths: build `DATA_DIR / filename`, reject it if it is not
lexically relative to `DATA_DIR` (`is_relative_to`), return `None` when the
resolved file does not exist or the suffix is not `.sorter`, else parse the
content. -/
def get_email (fs : List (List String × String)) (filename : String) :
    Option (String × Option String × Option String) :=
  let filepath := DATA_DIR ++ splitPath filename
  if DATA_DIR.isPrefixOf filepath then
    match fs.lookup (resolvePath filepath) with
    | none => none
    | some content =>
      if pySuffix (filepath.getLastD "") = ".sorter" then some (parse_email_file content)
      else none
  else none

/-! ## Webhook model (src/main.py) -/

/-- A parameter of a Python function: its name and whether it has a
default. -/
structure PyParam where
  name : String
  hasDefault : Bool
deriving DecidableEq

/-- Python-level runtime errors of the webhook path.  `LarkError` and the
reducer's `ParseError` are the only exceptions the handler catches; a
`TypeError` or `ValueError` propagates out of the handler. -/
inductive PyErr where
  | typeError (msg : String)
  | valueError (msg : String)
deriving DecidableEq

/-- Signature of `storage.save_email` (src/storage.py line 21):
`def save_email(subject, body, from_email=None) -> str`.  There is no
`timestamp` parameter, and the return value is one string. -/
def save_email_params : List PyParam :=
  [⟨"subject", false⟩, ⟨"body", false⟩, ⟨"from_email", true⟩]

/-- CPython binding of a call with `npos` positional arguments and the given
keyword names against a signature: raises `TypeError` for an unexpected
keyword, a keyword also bound positionally, or a missing required
argument. -/
def bindCall (params : List PyParam) (npos : Nat) (kwargs : List String) :
    Except PyErr Unit :=
  if params.length < npos then
    .error (.typeError "too many positional arguments")
  else
    match kwargs.find? (fun kw => !(params.any (fun p => p.name == kw))) with
    | some kw => .error (.typeError ("got an unexpected keyword argument " ++ kw))
    | none =>
      match kwargs.find? (fun kw => (params.take npos).any (fun p => p.name == kw)) with
      | some kw => .error (.typeError ("got multiple values for argument " ++ kw))
      | none =>
        match (params.drop npos).find?
            (fun p => !p.hasDefault && !(kwargs.contains p.name)) with
        | some p => .error (.typeError ("missing a required argument: " ++ p.name))
        | none => .ok ()

/-- The DSL branch of `postmark_webhook` (src/main.py lines 696-728).  When
the parsed document has statements, the handler first calls
`storage.save_email(email.Subject, email.TextBody, from_email=...,
timestamp=...)` (line 718) — two positional and two keyword arguments — and
only then calls `reducer.process_document`.  The call binding against
`save_email`'s signature raises before the body of `save_email` runs; the
`except (LarkError, ParseError)` clause does not catch a `TypeError`, so the
error propagates and the success acknowledgement is never reached.  (Were the
binding to succeed, the single returned string would additionally be unpacked
into the pair `filename, timestamp_str`.) -/
def postmark_webhook_dsl (env : Envelope) (st : State) (stmts : List Stmt) :
    Except PyErr (State × Option SemErr) :=
  if stmts.isEmpty then .ok (st, none)
  else
    match bindCall save_email_params 2 ["from_email", "timestamp"] with
    | .error e => .error e
    | .ok _ => .ok (process_document env st stmts)

/-- The `except (LarkError, ParseError)` branch of `postmark_webhook`
(src/main.py lines 731-744): it writes a debug file
`debug_<ts>_<from>.txt` into the data directory and deletes nothing — in
particular it does not remove the `.sorter` file of the failed submission. -/
def webhook_on_reducer_error (files : List (String × String))
    (debugName debugContent : String) : List (String × String) :=
  files ++ [(debugName, debugContent)]

/-- C3: for every submission whose document has at least one statement, the
webhook's `save_email` call raises `TypeError` (unexpected keyword argument
`timestamp`), so the reducer is never invoked and no acknowledgement is
produced. -/
theorem C3_webhook_save_email_type_error (env : Envelope) (st : State)
    (stmts : List Stmt) (h : stmts ≠ []) :
    postmark_webhook_dsl env st stmts =
      .error (.typeError "got an unexpected keyword argument timestamp") := by
  have hne : stmts.isEmpty = false := by
    cases stmts with
    | nil => exact absurd rfl h
    | cons a l => rfl
  simp only [postmark_webhook_dsl, hne, Bool.false_eq_true, if_false]
  rfl

theorem C3_webhook_save_email_type_error_witness :
    ([Stmt.hashtag "t"] ≠ ([] : List Stmt)) ∧
    postmark_webhook_dsl ⟨some "1", some "u@e", none⟩ ⟨[], [], []⟩ [Stmt.hashtag "t"] =
      .error (.typeError "got an unexpected keyword argument timestamp") :=
  ⟨by decide, C3_webhook_save_email_type_error ⟨some "1", some "u@e", none⟩
    ⟨[], [], []⟩ [Stmt.hashtag "t"] (by decide)⟩

/-- C2: the reducer rejects the vote-without-attribute document, yet after
the error handler runs, the `.sorter` file of that rejected submission is
still yielded by `stream_history`: the handler only adds a `debug_*.txt`
file (which the `*.sorter` glob excludes) and never removes the log
append. -/
theorem C2_rejected_submission_stays_in_replay :
    (process_document ⟨some "100", some "u@e", some "100+s.sorter"⟩ State.empty
        [.hashtag "t", .vote "a" "b" 1 1 none]).2 = some SemErr.missingAttributeContext ∧
    stream_history (webhook_on_reducer_error
        [("100+s.sorter", "#t\n/a 1:1 /b")] "debug_101_u_at_e.txt"
        "Subject: s\n\nBody:\n#t\n/a 1:1 /b")
      = [("#t\n/a 1:1 /b", none, none)] := by
  constructor
  · decide
  · decide

/-- C5: `stream_history` yields `(body, from, timestamp)` triples with no
filename component, and the startup replay loop, which unpacks four values
from each entry, fails with `ValueError` on the very first stored file. -/
theorem C5_replay_entries_lack_filename :
    stream_history [("1+a.sorter", "From: u@e\nTimestamp: 1\n---\nhi")]
      = [("hi", some "u@e", some "1")] ∧
    lifespan_replay_unpacks [("1+a.sorter", "From: u@e\nTimestamp: 1\n---\nhi")]
      = [.error "ValueError: not enough values to unpack (expected 4)"] := by
  constructor
  · decide
  · rfl

/-- C6: a filename with parent-directory segments resolves outside the
backing directory, yet `get_email` returns the file's parsed content rather
than not-found: the lexical `is_relative_to` check passes because the
unresolved parts still start with `data`. -/
theorem C6_path_traversal_escapes_data_dir :
    get_email [(["outside", "x.sorter"], "secret")] "../outside/x.sorter"
      = some ("secret", none, none) ∧
    ¬ DATA_DIR.isPrefixOf (resolvePath (DATA_DIR ++ splitPath "../outside/x.sorter")) := by
  constructor
  · decide
  · decide

/-! ## Ranking model (src/rank.py)

Machine floats are embedded as exact rationals.  The division `x / 0` is `0`
in `ℚ`; the only division by a possibly-zero quantity below is by `rcWmax`,
which is proved positive on every reachable call (`tarjans_scc` only emits
multi-node components containing an internal edge), so the model agrees with
the numpy computation on all inputs `compute_rankings_from_state` produces. -/

/-- Normalized comparison matrix `W` of `rank_centrality` (src/rank.py lines
29-31): `W[i,j] = A[i,j] / (A[i,j] + A[j,i])` when `A[i,j]` is nonzero. -/
def rcW (A : ℕ → ℕ → ℚ) (i j : ℕ) : ℚ :=
  if A i j ≠ 0 then A i j / (A i j + A j i) else 0

/-- Off-diagonal row sum of `W` (src/rank.py line 36). -/
def rcRowSum (n : ℕ) (A : ℕ → ℕ → ℚ) (i : ℕ) : ℚ :=
  ∑ j in Finset.range n, if j ≠ i then rcW A i j else 0

/-- `w_max`, the maximum off-diagonal row sum (src/rank.py line 36).  Python
`max` over the n row sums; since every row sum is non-negative on the call
sites (A is built from non-negative vote ratios), folding `max` from `0`
equals the Python maximum. -/
def rcWmax (n : ℕ) (A : ℕ → ℕ → ℚ) : ℚ :=
  ((List.range n).map (rcRowSum n A)).foldl max 0

/-- Transition matrix `P` (src/rank.py lines 43-45): off-diagonal entries
`W/w_max`, diagonal set to one minus the off-diagonal row sum.  (Python first
sets the whole row to `W/w_max` and then overwrites the diagonal, so the
diagonal of `W` never matters.) -/
def rcP (n : ℕ) (A : ℕ → ℕ → ℚ) (i j : ℕ) : ℚ :=
  if i = j then 1 - ∑ k in Finset.range n, (if k ≠ i then rcW A i k / rcWmax n A else 0)
  else rcW A i j / rcWmax n A

/-- One step `scores = prev_scores @ P` (src/rank.py line 56). -/
def rcStep (n : ℕ) (P : ℕ → ℕ → ℚ) (x : ℕ → ℚ) : ℕ → ℚ :=
  fun j => ∑ i in Finset.range n, x i * P i j

/-- The convergence tolerance `tol=1e-8` (exact here). -/
def rcTol : ℚ := 1 / 100000000

/-- The power iteration (src/rank.py lines 54-58): up to `fuel` applications
of `P`, stopping when the L1 distance between consecutive iterates drops
below `tol`; returns the last computed iterate. -/
def rcIter (n : ℕ) (P : ℕ → ℕ → ℚ) : ℕ → (ℕ → ℚ) → (ℕ → ℚ)
  | 0, prev => prev
  | fuel + 1, prev =>
    let scores := rcStep n P prev
    if (∑ j in Finset.range n, |scores j - prev j|) < rcTol then scores
    else rcIter n P fuel scores

/-- `rank_centrality(A, tol=1e-8, max_iters=100000)` (src/rank.py lines
10-62) for an `n × n` matrix: power-iterate from the uniform distribution. -/
def rank_centrality (n : ℕ) (A : ℕ → ℕ → ℚ) : ℕ → ℚ :=
  rcIter n (rcP n A) 100000 (fun _ => 1 / (n : ℚ))

/-! ### Tarjan's algorithm (src/rank.py lines 65-127) -/

/-- Mutable state of `tarjans_scc`: the index counter, the explicit stack
(head = top, matching Python's list-end top), the `index` and `lowlink`
dictionaries, the `on_stack` set (as a list) and the output components. -/
structure TarjanSt where
  counter : ℕ
  stack : List ℕ
  indexMap : ℕ → Option ℕ
  lowlink : ℕ → Option ℕ
  onStack : List ℕ
  components : List (List ℕ)

def tarjanInit : TarjanSt := ⟨0, [], fun _ => none, fun _ => none, [], []⟩

def updFun (v : ℕ) (val : Option ℕ) (f : ℕ → Option ℕ) : ℕ → Option ℕ :=
  fun x => if x = v then val else f x

/-- Reading `lowlink[v]` / `index[v]`; the default is never reached on
indexed vertices (Python would raise `KeyError` there). -/
def getLow (st : TarjanSt) (v : ℕ) : ℕ := (st.lowlink v).getD 0

def getIdx (st : TarjanSt) (v : ℕ) : ℕ := (st.indexMap v).getD 0

/-- Entry of `strongconnect(v)` (src/rank.py lines 93-99): assign index and
lowlink, bump the counter, push `v`. -/
def tarjanEnter (v : ℕ) (st : TarjanSt) : TarjanSt :=
  { counter := st.counter + 1
    stack := v :: st.stack
    indexMap := updFun v (some st.counter) st.indexMap
    lowlink := updFun v (some st.counter) st.lowlink
    onStack := v :: st.onStack
    components := st.components }

def updLow (v l : ℕ) (st : TarjanSt) : TarjanSt :=
  { st with lowlink := updFun v (some l) st.lowlink }

/-- The pop loop (src/rank.py lines 113-119): pop until `v` inclusive,
collecting the popped vertices in pop order.  Returns the component and the
remaining stack.  (Python would raise on an empty stack; that case is
unreachable because `v` is on the stack whenever the pop fires.) -/
def popComponent (v : ℕ) : List ℕ → List ℕ × List ℕ
  | [] => ([], [])
  | w :: rest =>
    if w = v then ([w], rest)
    else
      match popComponent v rest with
      | (c, r) => (w :: c, r)

/-- Root check and pop of `strongconnect` (src/rank.py lines 111-120). -/
def tarjanExit (v : ℕ) (st : TarjanSt) : TarjanSt :=
  if st.lowlink v = st.indexMap v then
    { st with
        stack := (popComponent v st.stack).2
        onStack := st.onStack.filter (fun x => !((popComponent v st.stack).1.contains x))
        components := st.components ++ [(popComponent v st.stack).1] }
  else st

/-- The successor loop of `strongconnect` (src/rank.py lines 101-109),
parametrized by the recursive call `rec`: unvisited successors are recursed
into and `lowlink[v]` is lowered to `lowlink[w]`; on-stack successors lower
`lowlink[v]` to `index[w]`. -/
def scLoop (rec : ℕ → TarjanSt → TarjanSt) (v : ℕ) : List ℕ → TarjanSt → TarjanSt
  | [], st => st
  | w :: ws, st =>
    let st' :=
      if (st.indexMap w).isNone then
        let s1 := rec w st
        updLow v (min (getLow s1 v) (getLow s1 w)) s1
      else if w ∈ st.onStack then
        updLow v (min (getLow st v) (getIdx st w)) st
      else st
    scLoop rec v ws st'

/-- `strongconnect` (src/rank.py lines 93-120), with a fuel argument bounding
the recursion depth; fuel `n` suffices because every recursive call is made
on a vertex that is unindexed and indexes it immediately (proved below). -/
def strongconnect (adj : ℕ → List ℕ) : ℕ → ℕ → TarjanSt → TarjanSt
  | 0, _, st => st
  | fuel + 1, v, st =>
    tarjanExit v (scLoop (strongconnect adj fuel) v (adj v) (tarjanEnter v st))

/-- The adjacency list built from the matrix (src/rank.py lines 79-84):
successors `j` of `i` with `A[i,j] > 0` and `i ≠ j`, in increasing order. -/
def tarjanAdj (n : ℕ) (A : ℕ → ℕ → ℚ) (i : ℕ) : List ℕ :=
  (List.range n).filter (fun j => decide (0 < A i j) && decide (i ≠ j))

/-- `tarjans_scc` (src/rank.py lines 65-127): run `strongconnect` from every
unvisited vertex in increasing order; components come out in reverse
topological order. -/
def tarjans_scc (n : ℕ) (A : ℕ → ℕ → ℚ) : List (List ℕ) :=
  ((List.range n).foldl
    (fun st v => if (st.indexMap v).isNone then strongconnect (tarjanAdj n A) n v st else st)
    tarjanInit).components

/-! ### compute_rankings_from_state (src/rank.py lines 182-296) -/

/-- The keys of `filtered_items`: titles of items carrying the hashtag, in
dict (insertion) order. -/
def candidateKeys (st : State) (hashtag : String) : List String :=
  (st.items.filter (fun p => p.2.hashtags.contains hashtag)).map Prod.fst

/-- `filtered_votes` (src/rank.py lines 223-228): votes with the requested
attribute whose two items both carry the hashtag. -/
def filteredVotes (st : State) (hashtag attrName : String) : List VoteRecord :=
  st.votes.filter (fun v => v.attr == some attrName
    && (candidateKeys st hashtag).contains v.item1
    && (candidateKeys st hashtag).contains v.item2)

/-- The comparison matrix (src/rank.py lines 244-252): for each vote on
`(item1=i, item2=j)` with ratios `(rl, rr)`, `A[j,i] += rl` and
`A[i,j] += rr`, indices being positions in the sorted title list. -/
def buildA (titles : List String) (votes : List VoteRecord) : ℕ → ℕ → ℚ :=
  votes.foldl
    (fun A v =>
      let i := titles.indexOf v.item1
      let j := titles.indexOf v.item2
      fun a b =>
        (if a = j ∧ b = i then (v.ratio_left : ℚ) else 0) +
        (if a = i ∧ b = j then (v.ratio_right : ℚ) else 0) + A a b)
    (fun _ _ => 0)

/-- Ranking one component (src/rank.py lines 259-294): singletons get score
1.0 and rank 1; larger components get `rank_centrality` scores on the
restricted matrix, stably sorted by descending score (Python `sorted` with
`reverse=True`), with ranks 1..k.  (The `try`/`except` fallback to uniform
scores cannot fire in this total model.) -/
def rankComponent (titles : List String) (A : ℕ → ℕ → ℚ) (cid : ℕ) (comp : List ℕ) :
    List (String × ℚ × ℕ × ℕ) :=
  match comp with
  | [idx] => [(titles.getD idx "", 1, 1, cid)]
  | _ =>
    let size := comp.length
    let Asub := fun i j => A (comp.getD i 0) (comp.getD j 0)
    let scores := rank_centrality size Asub
    let sortedIdx := stableSort (fun i j => decide (scores j ≤ scores i)) (List.range size)
    sortedIdx.enum.map (fun p => (titles.getD (comp.getD p.2 0) "", scores p.2, p.1 + 1, cid))

/-- `compute_rankings_from_state` (src/rank.py lines 182-296). -/
def compute_rankings_from_state (st : State) (hashtag attrName : String) :
    List (String × ℚ × ℕ × ℕ) :=
  if st.items.isEmpty then []
  else
    let cands := candidateKeys st hashtag
    if cands.isEmpty then []
    else
      let votes := filteredVotes st hashtag attrName
      if votes.isEmpty then
        (sortStrings cands).enum.map (fun p => (p.2, 1 / (cands.length : ℚ), 1, p.1))
      else
        let titles := sortStrings cands
        let A := buildA titles votes
        ((tarjans_scc titles.length A).enum.map
          (fun ci => rankComponent titles A ci.1 ci.2)).flatten

/-! ## Sorting lemmas -/

theorem insertLe_perm (le : α → α → Bool) (x : α) (l : List α) :
    (insertLe le x l).Perm (x :: l) := by
  induction l with
  | nil => exact List.Perm.refl _
  | cons y ys ih =>
    by_cases h : le x y = true
    · simp [insertLe, h]
    · simp only [insertLe, h, Bool.false_eq_true, if_false]
      exact ((ih.cons y).trans (List.Perm.swap x y ys))

theorem stableSort_perm (le : α → α → Bool) (l : List α) :
    (stableSort le l).Perm l := by
  induction l with
  | nil => exact List.Perm.refl _
  | cons a as ih =>
    exact (insertLe_perm le a (stableSort le as)).trans (ih.cons a)

theorem stableSort_length (le : α → α → Bool) (l : List α) :
    (stableSort le l).length = l.length :=
  (stableSort_perm le l).length_eq

theorem insertLe_sorted (le : α → α → Bool)
    (htot : ∀ a b, le a b = true ∨ le b a = true)
    (htrans : ∀ a b c, le a b = true → le b c = true → le a c = true)
    (x : α) (l : List α) (hl : l.Pairwise (fun a b => le a b = true)) :
    (insertLe le x l).Pairwise (fun a b => le a b = true) := by
  induction l with
  | nil => simp [insertLe]
  | cons y ys ih =>
    rcases hl with _ | ⟨hy, hys⟩
    by_cases h : le x y = true
    · simp only [insertLe, h, if_true]
      refine List.Pairwise.cons ?_ (List.Pairwise.cons hy hys)
      intro z hz
      rcases List.mem_cons.mp hz with rfl | hz
      · exact h
      · exact htrans x y z h (hy z hz)
    · simp only [insertLe, h, Bool.false_eq_true, if_false]
      refine List.Pairwise.cons ?_ (ih hys)
      intro z hz
      have hz' := (insertLe_perm le x ys).mem_iff.mp hz
      rcases List.mem_cons.mp hz' with rfl | hz'
      · rcases htot y z with hyz | hzy
        · exact hyz
        · exact absurd hzy h
      · exact hy z hz'

theorem stableSort_sorted (le : α → α → Bool)
    (htot : ∀ a b, le a b = true ∨ le b a = true)
    (htrans : ∀ a b c, le a b = true → le b c = true → le a c = true)
    (l : List α) : (stableSort le l).Pairwise (fun a b => le a b = true) := by
  induction l with
  | nil => simp [stableSort]
  | cons a as ih => exact insertLe_sorted le htot htrans a (stableSort le as) ih

/-! ## Stochasticity of the transition matrix and sum preservation -/

theorem list_sum_range_eq_finset_sum (n : ℕ) (f : ℕ → ℚ) :
    ((List.range n).map f).sum = ∑ i in Finset.range n, f i := by
  induction n with
  | zero => simp
  | succ m ih => simp [List.range_succ, Finset.sum_range_succ, ih]

/-- Every row of `P` sums to exactly one: the diagonal is defined as one
minus the off-diagonal row sum (src/rank.py lines 43-45). -/
theorem rcP_row_sum (n : ℕ) (A : ℕ → ℕ → ℚ) (i : ℕ) (hi : i < n) :
    ∑ j in Finset.range n, rcP n A i j = 1 := by
  have hmem : i ∈ Finset.range n := Finset.mem_range.mpr hi
  rw [Finset.sum_eq_add_sum_diff_singleton hmem]
  have hdiff : ∀ j ∈ Finset.range n \ {i}, rcP n A i j = rcW A i j / rcWmax n A := by
    intro j hj
    rcases Finset.mem_sdiff.mp hj with ⟨-, hji⟩
    rw [Finset.mem_singleton] at hji
    have : ¬ i = j := fun h => hji h.symm
    simp [rcP, this]
  rw [Finset.sum_congr rfl hdiff]
  have hdiag : rcP n A i i =
      1 - ∑ k in Finset.range n, (if k ≠ i then rcW A i k / rcWmax n A else 0) := by
    simp [rcP]
  rw [hdiag]
  have hsum : (∑ k in Finset.range n, (if k ≠ i then rcW A i k / rcWmax n A else 0)) =
      ∑ j in Finset.range n \ {i}, rcW A i j / rcWmax n A := by
    rw [Finset.sum_ite, Finset.sum_const_zero, add_zero]
    congr 1
    ext x
    simp [Finset.mem_filter, Finset.mem_sdiff, and_comm]
  rw [hsum]
  ring

/-- A step `x ↦ x @ P` with row-stochastic `P` preserves the total mass. -/
theorem rcStep_sum (n : ℕ) (P : ℕ → ℕ → ℚ)
    (hP : ∀ i, i < n → ∑ j in Finset.range n, P i j = 1) (x : ℕ → ℚ) :
    ∑ j in Finset.range n, rcStep n P x j = ∑ i in Finset.range n, x i := by
  unfold rcStep
  rw [Finset.sum_comm]
  refine Finset.sum_congr rfl ?_
  intro i hi
  rw [← Finset.mul_sum, hP i (Finset.mem_range.mp hi), mul_one]

theorem rcIter_sum (n : ℕ) (P : ℕ → ℕ → ℚ)
    (hP : ∀ i, i < n → ∑ j in Finset.range n, P i j = 1) :
    ∀ (fuel : ℕ) (x : ℕ → ℚ), (∑ i in Finset.range n, x i) = 1 →
      ∑ j in Finset.range n, rcIter n P fuel x j = 1 := by
  intro fuel
  induction fuel with
  | zero => intro x hx; exact hx
  | succ f ih =>
    intro x hx
    have hstep : (∑ j in Finset.range n, rcStep n P x j) = 1 := by
      rw [rcStep_sum n P hP x, hx]
    by_cases hconv :
        (∑ j in Finset.range n, |rcStep n P x j - x j|) < rcTol
    · simpa [rcIter, hconv] using hstep
    · simpa [rcIter, hconv] using ih (rcStep n P x) hstep

/-- The scores of `rank_centrality` sum to exactly one in this exact-rational
model (uniform start, row-stochastic transition). -/
theorem rank_centrality_sum (n : ℕ) (A : ℕ → ℕ → ℚ) (hn : 0 < n) :
    ∑ j in Finset.range n, rank_centrality n A j = 1 := by
  unfold rank_centrality
  refine rcIter_sum n (rcP n A) (fun i hi => rcP_row_sum n A i hi) 100000 _ ?_
  rw [Finset.sum_const, Finset.card_range, nsmul_eq_mul, mul_one_div, div_self]
  exact_mod_cast hn.ne'

/-! ## Tarjan invariants

The claims need two facts about `tarjans_scc`: its components partition the
vertices `0..n-1`, and every multi-vertex component contains an internal
edge (which makes `rcWmax` positive on every `rank_centrality` call).  Both
follow from a stack-discipline invariant of `strongconnect` plus a lower
bound on the root's lowlink. -/

/-- Number of vertices below `n` not yet indexed; the fuel measure. -/
def unIndexedCount (n : ℕ) (st : TarjanSt) : ℕ :=
  ((List.range n).filter (fun x => (st.indexMap x).isNone)).length

/-- Well-formedness of the traversal state. -/
structure TarjanWF (n : ℕ) (st : TarjanSt) : Prop where
  stack_indexed : ∀ x ∈ st.stack, (st.indexMap x).isSome
  stack_lt : ∀ x ∈ st.stack, x < n
  onStack_iff : ∀ x, x ∈ st.onStack ↔ x ∈ st.stack
  comp_lt : ∀ C ∈ st.components, ∀ x ∈ C, x < n
  flatten_indexed : ∀ x ∈ st.components.flatten, (st.indexMap x).isSome
  disjoint : (st.components.flatten ++ st.stack).Nodup
  covered : ∀ x, (st.indexMap x).isSome → x ∈ st.components.flatten ∨ x ∈ st.stack
  low_some : ∀ x, (st.indexMap x).isSome → (st.lowlink x).isSome

/-- Invariant holding throughout the successor loop of `strongconnect v`,
relating the loop state `st1` to the state `st` before `v` was entered. -/
structure LoopInv (adj : ℕ → List ℕ) (n v : ℕ) (st st1 : TarjanSt) : Prop where
  wf : TarjanWF n st1
  idx_pres : ∀ x, (st.indexMap x).isSome → st1.indexMap x = st.indexMap x
  low_pres : ∀ x, (st.indexMap x).isSome → st1.lowlink x = st.lowlink x
  v_idx : st1.indexMap v = some st.counter
  counter_ge : st.counter + 1 ≤ st1.counter
  idx_new_ge : ∀ x i, st1.indexMap x = some i → (st.indexMap x).isSome ∨ st.counter ≤ i
  stack_shape : ∃ U, st1.stack = U ++ v :: st.stack ∧
      (∀ x ∈ U, ¬ (st.indexMap x).isSome ∧ x ≠ v) ∧
      (U = [] ∨ ∃ w, U.getLast? = some w ∧ w ∈ adj v)
  comps_shape : ∃ N, st1.components = st.components ++ N ∧
      ∀ C ∈ N, C ≠ [] ∧ (∀ x ∈ C, ¬ (st.indexMap x).isSome) ∧
        (2 ≤ C.length → ∃ a ∈ C, ∃ b ∈ C, b ∈ adj a)
  low_v_ge : ∀ m, (∀ x ∈ st.stack, ∀ i, st.indexMap x = some i → m ≤ i) →
      m ≤ st.counter → m ≤ getLow st1 v
  low_v_le : getLow st1 v ≤ st.counter
  un_lt : unIndexedCount n st1 < unIndexedCount n st

/-- Postcondition of `strongconnect v st`. -/
structure SCSpec (adj : ℕ → List ℕ) (n v : ℕ) (st st' : TarjanSt) : Prop where
  wf : TarjanWF n st'
  idx_pres : ∀ x, (st.indexMap x).isSome → st'.indexMap x = st.indexMap x
  low_pres : ∀ x, (st.indexMap x).isSome → st'.lowlink x = st.lowlink x
  v_idx : st'.indexMap v = some st.counter
  counter_ge : st.counter + 1 ≤ st'.counter
  idx_new_ge : ∀ x i, st'.indexMap x = some i → (st.indexMap x).isSome ∨ st.counter ≤ i
  stack_split : ∃ T, st'.stack = T ++ st.stack ∧
      (∀ x ∈ T, ¬ (st.indexMap x).isSome) ∧ (T = [] ∨ T.getLast? = some v)
  comps_split : ∃ N, st'.components = st.components ++ N ∧
      ∀ C ∈ N, C ≠ [] ∧ (∀ x ∈ C, ¬ (st.indexMap x).isSome) ∧
        (2 ≤ C.length → ∃ a ∈ C, ∃ b ∈ C, b ∈ adj a)
  low_v_ge : ∀ m, (∀ x ∈ st.stack, ∀ i, st.indexMap x = some i → m ≤ i) →
      m ≤ st.counter → m ≤ getLow st' v
  low_v_le : getLow st' v ≤ st.counter
  un_lt : unIndexedCount n st' < unIndexedCount n st
  stack_empty : st.stack = [] → st'.stack = []

theorem countP_lt_of_flip (p q : ℕ → Bool) (v : ℕ) :
    ∀ l : List ℕ, v ∈ l → (∀ x, p x = true → q x = true) →
      q v = true → p v = false → l.countP p < l.countP q := by
  intro l
  induction l with
  | nil => simp
  | cons a as ih =>
    intro hv himp hq hp
    rcases List.mem_cons.mp hv with rfl | hv'
    · rw [List.countP_cons, List.countP_cons, hp, hq]
      have : as.countP p ≤ as.countP q := List.countP_mono_left (fun x _ hx => himp x hx)
      simp only [if_true, Bool.false_eq_true, if_false, add_zero]
      omega
    · rw [List.countP_cons, List.countP_cons]
      have h1 := ih hv' himp hq hp
      have h2 : (if p a = true then 1 else 0) ≤ (if q a = true then 1 else 0) := by
        by_cases hpa : p a = true
        · simp [hpa, himp a hpa]
        · simp [hpa]
      omega

theorem unIndexedCount_lt (n : ℕ) (st st' : TarjanSt) (v : ℕ) (hv : v < n)
    (hnone : (st.indexMap v).isNone) (hsome : (st'.indexMap v).isSome)
    (hmono : ∀ x, (st.indexMap x).isSome → (st'.indexMap x).isSome) :
    unIndexedCount n st' < unIndexedCount n st := by
  unfold unIndexedCount
  rw [← List.countP_eq_length_filter, ← List.countP_eq_length_filter]
  refine countP_lt_of_flip _ _ v (List.range n) (List.mem_range.mpr hv) ?_ ?_ ?_
  · intro x hx
    rw [Option.isNone_iff_eq_none] at hx ⊢
    by_contra hne
    have : (st'.indexMap x).isSome := by
      apply hmono
      rwa [Option.isSome_iff_ne_none]
    rw [hx] at this
    simp at this
  · rwa [Option.isNone_iff_eq_none, ← Option.isNone_iff_eq_none] at hnone ⊢
  · simp [Option.isNone_iff_eq_none] at hsome ⊢
    exact hsome

theorem unIndexedCount_le (n : ℕ) (st st' : TarjanSt)
    (hmono : ∀ x, (st.indexMap x).isSome → (st'.indexMap x).isSome) :
    unIndexedCount n st' ≤ unIndexedCount n st := by
  unfold unIndexedCount
  rw [← List.countP_eq_length_filter, ← List.countP_eq_length_filter]
  refine List.countP_mono_left ?_
  intro x _ hx
  rw [Option.isNone_iff_eq_none] at hx ⊢
  by_contra hne
  have : (st'.indexMap x).isSome := by
    apply hmono
    rwa [Option.isSome_iff_ne_none]
  rw [hx] at this
  simp at this

theorem popComponent_append (v : ℕ) (U rest : List ℕ) (hU : ∀ x ∈ U, x ≠ v) :
    popComponent v (U ++ v :: rest) = (U ++ [v], rest) := by
  induction U with
  | nil => simp [popComponent]
  | cons a as ih =>
    have ha : a ≠ v := hU a (by simp)
    simp only [List.cons_append, popComponent, ha, if_false]
    rw [List.append_eq, ih (fun x hx => hU x (by simp [hx]))]

theorem updFun_self (v : ℕ) (val : Option ℕ) (f : ℕ → Option ℕ) :
    updFun v val f v = val := by simp [updFun]

theorem updFun_ne (v : ℕ) (val : Option ℕ) (f : ℕ → Option ℕ) (x : ℕ) (h : x ≠ v) :
    updFun v val f x = f x := by simp [updFun, h]

theorem updFun_isSome (v c : ℕ) (f : ℕ → Option ℕ) (x : ℕ) (h : (f x).isSome) :
    (updFun v (some c) f x).isSome := by
  by_cases hx : x = v <;> simp [updFun, hx, h]

theorem TarjanWF_updLow (n v l : ℕ) (s : TarjanSt) (h : TarjanWF n s) :
    TarjanWF n (updLow v l s) := by
  refine ⟨h.stack_indexed, h.stack_lt, h.onStack_iff, h.comp_lt, h.flatten_indexed,
    h.disjoint, h.covered, ?_⟩
  intro x hx
  by_cases hxv : x = v
  · subst hxv
    simp [updLow, updFun]
  · have := h.low_some x hx
    simpa [updLow, updFun_ne v _ _ x hxv] using this

theorem tarjanEnter_loopInv (adj : ℕ → List ℕ) (n v : ℕ) (st : TarjanSt)
    (hwf : TarjanWF n st) (hv : v < n) (hnone : (st.indexMap v).isNone) :
    LoopInv adj n v st (tarjanEnter v st) := by
  have hvs : ¬ (st.indexMap v).isSome := by simp [Option.isNone_iff_eq_none.mp hnone]
  have hvstack : v ∉ st.stack := fun hmem => hvs (hwf.stack_indexed v hmem)
  have hvflat : v ∉ st.components.flatten := fun hmem => hvs (hwf.flatten_indexed v hmem)
  refine ⟨?_, ?_, ?_, ?_, ?_, ?_, ?_, ?_, ?_, ?_, ?_⟩
  · -- well-formedness of the entered state
    refine ⟨?_, ?_, ?_, hwf.comp_lt, ?_, ?_, ?_, ?_⟩
    · intro x hx
      rcases List.mem_cons.mp hx with rfl | hx'
      · simp [tarjanEnter, updFun]
      · exact updFun_isSome v st.counter _ x (hwf.stack_indexed x hx')
    · intro x hx
      rcases List.mem_cons.mp hx with rfl | hx'
      · exact hv
      · exact hwf.stack_lt x hx'
    · intro x
      simp only [tarjanEnter, List.mem_cons]
      rw [hwf.onStack_iff x]
    · intro x hx
      exact updFun_isSome v st.counter _ x (hwf.flatten_indexed x hx)
    · have hperm : (st.components.flatten ++ v :: st.stack).Perm
          (v :: (st.components.flatten ++ st.stack)) := List.perm_middle
      refine hperm.symm.nodup ?_
      refine List.Nodup.cons ?_ hwf.disjoint
      intro hmem
      rcases List.mem_append.mp hmem with h | h
      · exact hvflat h
      · exact hvstack h
    · intro x hx
      by_cases hxv : x = v
      · subst hxv
        right
        simp [tarjanEnter]
      · rw [show (tarjanEnter v st).indexMap = updFun v (some st.counter) st.indexMap from rfl,
          updFun_ne v _ _ x hxv] at hx
        rcases hwf.covered x hx with h | h
        · exact Or.inl h
        · exact Or.inr (List.mem_cons_of_mem v h)
    · intro x hx
      by_cases hxv : x = v
      · subst hxv
        simp [tarjanEnter, updFun]
      · rw [show (tarjanEnter v st).indexMap = updFun v (some st.counter) st.indexMap from rfl,
          updFun_ne v _ _ x hxv] at hx
        have := hwf.low_some x hx
        simpa [tarjanEnter, updFun_ne v _ _ x hxv] using this
  · intro x hx
    have hxv : x ≠ v := fun h => hvs (h ▸ hx)
    exact updFun_ne v _ _ x hxv
  · intro x hx
    have hxv : x ≠ v := fun h => hvs (h ▸ hx)
    exact updFun_ne v _ _ x hxv
  · simp [tarjanEnter, updFun]
  · exact Nat.le_refl _
  · intro x i hx
    by_cases hxv : x = v
    · rw [hxv] at hx
      rw [show (tarjanEnter v st).indexMap = updFun v (some st.counter) st.indexMap from rfl,
        updFun_self] at hx
      right
      injection hx with hi
      omega
    · rw [show (tarjanEnter v st).indexMap = updFun v (some st.counter) st.indexMap from rfl,
        updFun_ne v _ _ x hxv] at hx
      left
      simp [hx]
  · exact ⟨[], rfl, by simp, Or.inl rfl⟩
  · exact ⟨[], by simp [tarjanEnter], by simp⟩
  · intro m _ hmc
    simpa [getLow, tarjanEnter, updFun] using hmc
  · simp [getLow, tarjanEnter, updFun]
  · refine unIndexedCount_lt n st _ v hv hnone ?_ ?_
    · simp [tarjanEnter, updFun]
    · intro x hx
      exact updFun_isSome v st.counter _ x hx

theorem loopInv_child_step (adj : ℕ → List ℕ) (n v : ℕ) (st st1 s1 : TarjanSt) (w : ℕ)
    (hwf : TarjanWF n st) (hnone : (st.indexMap v).isNone) (hw : w ∈ adj v)
    (inv : LoopInv adj n v st st1) (spec : SCSpec adj n w st1 s1) :
    LoopInv adj n v st (updLow v (min (getLow s1 v) (getLow s1 w)) s1) := by
  have hvs : ¬ (st.indexMap v).isSome := by simp [Option.isNone_iff_eq_none.mp hnone]
  have hm1 : ∀ x, (st.indexMap x).isSome → (st1.indexMap x).isSome := by
    intro x hx
    rw [inv.idx_pres x hx]
    exact hx
  have hvsome1 : (st1.indexMap v).isSome := by
    rw [inv.v_idx]
    rfl
  have hs1v_idx : s1.indexMap v = some st.counter := by
    rw [spec.idx_pres v hvsome1, inv.v_idx]
  have hs1_low_v : s1.lowlink v = st1.lowlink v := spec.low_pres v hvsome1
  have hlow2 : getLow (updLow v (min (getLow s1 v) (getLow s1 w)) s1) v =
      min (getLow s1 v) (getLow s1 w) := by
    simp [getLow, updLow, updFun]
  refine ⟨TarjanWF_updLow n v _ s1 spec.wf, ?_, ?_, hs1v_idx, ?_, ?_, ?_, ?_, ?_, ?_, ?_⟩
  · intro x hx
    rw [show (updLow v (min (getLow s1 v) (getLow s1 w)) s1).indexMap = s1.indexMap from rfl,
      spec.idx_pres x (hm1 x hx), inv.idx_pres x hx]
  · intro x hx
    have hxv : x ≠ v := fun h => hvs (h ▸ hx)
    rw [show (updLow v (min (getLow s1 v) (getLow s1 w)) s1).lowlink =
        updFun v (some (min (getLow s1 v) (getLow s1 w))) s1.lowlink from rfl,
      updFun_ne v _ _ x hxv, spec.low_pres x (hm1 x hx), inv.low_pres x hx]
  · show st.counter + 1 ≤ s1.counter
    have h1 := inv.counter_ge
    have h2 := spec.counter_ge
    omega
  · intro x i hx
    rcases spec.idx_new_ge x i hx with hsome1 | hge
    · have : st1.indexMap x = some i := by
        rw [← spec.idx_pres x hsome1]
        exact hx
      exact inv.idx_new_ge x i this
    · right
      have := inv.counter_ge
      omega
  · obtain ⟨U, hUeq, hUmem, hUlast⟩ := inv.stack_shape
    obtain ⟨T, hTeq, hTmem, hTlast⟩ := spec.stack_split
    refine ⟨T ++ U, ?_, ?_, ?_⟩
    · rw [show (updLow v (min (getLow s1 v) (getLow s1 w)) s1).stack = s1.stack from rfl,
        hTeq, hUeq, List.append_assoc]
    · intro x hx
      rcases List.mem_append.mp hx with hxT | hxU
      · refine ⟨fun hst => hTmem x hxT (hm1 x hst), fun hxv => hTmem x hxT (hxv ▸ hvsome1)⟩
      · exact hUmem x hxU
    · rcases hUlast with hUnil | ⟨w', hw'last, hw'adj⟩
      · rw [hUnil, List.append_nil]
        rcases hTlast with hTnil | hTlast'
        · exact Or.inl hTnil
        · exact Or.inr ⟨w, hTlast', hw⟩
      · right
        refine ⟨w', ?_, hw'adj⟩
        have hUne : U ≠ [] := by
          intro h
          rw [h] at hw'last
          simp at hw'last
        rw [List.getLast?_append, hw'last]
        rfl
  · obtain ⟨N, hNeq, hNmem⟩ := inv.comps_shape
    obtain ⟨N2, hN2eq, hN2mem⟩ := spec.comps_split
    refine ⟨N ++ N2, ?_, ?_⟩
    · rw [show (updLow v (min (getLow s1 v) (getLow s1 w)) s1).components = s1.components from rfl,
        hN2eq, hNeq, List.append_assoc]
    · intro C hC
      rcases List.mem_append.mp hC with hCN | hCN2
      · exact hNmem C hCN
      · obtain ⟨hne, hmem, hedge⟩ := hN2mem C hCN2
        exact ⟨hne, fun x hx hst => hmem x hx (hm1 x hst), hedge⟩
  · intro m hstack hmc
    rw [hlow2]
    refine le_min ?_ ?_
    · have : getLow s1 v = getLow st1 v := by
        rw [getLow, getLow, hs1_low_v]
      rw [this]
      exact inv.low_v_ge m hstack hmc
    · refine spec.low_v_ge m ?_ ?_
      · intro x hxstack i hxi
        obtain ⟨U, hUeq, hUmem, -⟩ := inv.stack_shape
        rw [hUeq] at hxstack
        rcases List.mem_append.mp hxstack with hxU | hxvs
        · rcases inv.idx_new_ge x i hxi with hsome | hge
          · exact absurd hsome (hUmem x hxU).1
          · omega
        · rcases List.mem_cons.mp hxvs with rfl | hxst
          · rw [inv.v_idx] at hxi
            injection hxi with hi
            omega
          · have hxsome : (st.indexMap x).isSome := hwf.stack_indexed x hxst
            rw [inv.idx_pres x hxsome] at hxi
            exact hstack x hxst i hxi
      · have := inv.counter_ge
        omega
  · rw [hlow2]
    have h1 : getLow s1 v = getLow st1 v := by rw [getLow, getLow, hs1_low_v]
    calc min (getLow s1 v) (getLow s1 w) ≤ getLow s1 v := min_le_left _ _
    _ = getLow st1 v := h1
    _ ≤ st.counter := inv.low_v_le
  · have h1 : unIndexedCount n (updLow v (min (getLow s1 v) (getLow s1 w)) s1) =
        unIndexedCount n s1 := rfl
    rw [h1]
    exact lt_trans spec.un_lt inv.un_lt

theorem loopInv_onstack_step (adj : ℕ → List ℕ) (n v : ℕ) (st st1 : TarjanSt) (w : ℕ)
    (hwf : TarjanWF n st) (hnone : (st.indexMap v).isNone)
    (inv : LoopInv adj n v st st1) (hws : w ∈ st1.onStack) :
    LoopInv adj n v st (updLow v (min (getLow st1 v) (getIdx st1 w)) st1) := by
  have hvs : ¬ (st.indexMap v).isSome := by simp [Option.isNone_iff_eq_none.mp hnone]
  have hlow2 : getLow (updLow v (min (getLow st1 v) (getIdx st1 w)) st1) v =
      min (getLow st1 v) (getIdx st1 w) := by
    simp [getLow, updLow, updFun]
  refine ⟨TarjanWF_updLow n v _ st1 inv.wf, ?_, ?_, inv.v_idx, inv.counter_ge,
    inv.idx_new_ge, inv.stack_shape, inv.comps_shape, ?_, ?_, inv.un_lt⟩
  · exact inv.idx_pres
  · intro x hx
    have hxv : x ≠ v := fun h => hvs (h ▸ hx)
    rw [show (updLow v (min (getLow st1 v) (getIdx st1 w)) st1).lowlink =
        updFun v (some (min (getLow st1 v) (getIdx st1 w))) st1.lowlink from rfl,
      updFun_ne v _ _ x hxv, inv.low_pres x hx]
  · intro m hstack hmc
    rw [hlow2]
    refine le_min (inv.low_v_ge m hstack hmc) ?_
    have hwstack : w ∈ st1.stack := (inv.wf.onStack_iff w).mp hws
    have hwsome : (st1.indexMap w).isSome := inv.wf.stack_indexed w hwstack
    obtain ⟨i, hi⟩ := Option.isSome_iff_exists.mp hwsome
    have hgi : getIdx st1 w = i := by rw [getIdx, hi]; rfl
    rw [hgi]
    obtain ⟨U, hUeq, hUmem, -⟩ := inv.stack_shape
    rw [hUeq] at hwstack
    rcases List.mem_append.mp hwstack with hxU | hxvs
    · rcases inv.idx_new_ge w i hi with hsome | hge
      · exact absurd hsome (hUmem w hxU).1
      · omega
    · rcases List.mem_cons.mp hxvs with rfl | hxst
      · rw [inv.v_idx] at hi
        injection hi with hi'
        omega
      · have hxsome : (st.indexMap w).isSome := hwf.stack_indexed w hxst
        rw [inv.idx_pres w hxsome] at hi
        exact hstack w hxst i hi
  · rw [hlow2]
    exact le_trans (min_le_left _ _) inv.low_v_le

theorem scLoop_loopInv (adj : ℕ → List ℕ) (n v : ℕ) (st : TarjanSt) (f : ℕ)
    (hadj : ∀ i, ∀ j ∈ adj i, j < n)
    (hwf : TarjanWF n st) (hnone : (st.indexMap v).isNone)
    (hrec : ∀ w stc, TarjanWF n stc → w < n → (stc.indexMap w).isNone →
        unIndexedCount n stc ≤ f → SCSpec adj n w stc (strongconnect adj f w stc))
    (hfuel : unIndexedCount n st ≤ f + 1) :
    ∀ (ws : List ℕ) (st1 : TarjanSt), (∀ w ∈ ws, w ∈ adj v) →
      LoopInv adj n v st st1 →
      LoopInv adj n v st (scLoop (strongconnect adj f) v ws st1) := by
  intro ws
  induction ws with
  | nil => intro st1 _ inv; exact inv
  | cons w ws' ih =>
    intro st1 hmemadj inv
    have hw : w ∈ adj v := hmemadj w (List.mem_cons_self w ws')
    have htail : ∀ x ∈ ws', x ∈ adj v := fun x hx => hmemadj x (List.mem_cons_of_mem w hx)
    by_cases h1 : (st1.indexMap w).isNone
    · have hwlt : w < n := hadj v w hw
      have hfuel1 : unIndexedCount n st1 ≤ f := by
        have := inv.un_lt
        omega
      have spec := hrec w st1 inv.wf hwlt h1 hfuel1
      have step := loopInv_child_step adj n v st st1 _ w hwf hnone hw inv spec
      have hres := ih _ htail step
      simpa [scLoop, h1] using hres
    · by_cases h2 : w ∈ st1.onStack
      · have step := loopInv_onstack_step adj n v st st1 w hwf hnone inv h2
        have hres := ih _ htail step
        simpa [scLoop, h1, h2] using hres
      · have hres := ih _ htail inv
        simpa [scLoop, h1, h2] using hres

theorem tarjanExit_spec (adj : ℕ → List ℕ) (n v : ℕ) (st st2 : TarjanSt)
    (hwf : TarjanWF n st) (hv : v < n) (hnone : (st.indexMap v).isNone)
    (inv : LoopInv adj n v st st2) :
    SCSpec adj n v st (tarjanExit v st2) := by
  have hvs : ¬ (st.indexMap v).isSome := by simp [Option.isNone_iff_eq_none.mp hnone]
  have hvstack : v ∉ st.stack := fun h => hvs (hwf.stack_indexed v h)
  obtain ⟨U, hUeq, hUmem, hUlast⟩ := inv.stack_shape
  obtain ⟨N, hNeq, hNmem⟩ := inv.comps_shape
  have hvsome2 : (st2.indexMap v).isSome := by rw [inv.v_idx]; rfl
  have hlowsome : (st2.lowlink v).isSome := inv.wf.low_some v hvsome2
  obtain ⟨l, hl⟩ := Option.isSome_iff_exists.mp hlowsome
  have hgl : getLow st2 v = l := by rw [getLow, hl]; rfl
  by_cases hpop : st2.lowlink v = st2.indexMap v
  · -- the pop fires: the whole pushed region U ++ [v] becomes a component
    have hUne_v : ∀ x ∈ U, x ≠ v := fun x hx => (hUmem x hx).2
    have hpopeq : popComponent v st2.stack = (U ++ [v], st.stack) := by
      rw [hUeq]
      exact popComponent_append v U st.stack hUne_v
    have hexit : tarjanExit v st2 =
        { st2 with
            stack := st.stack
            onStack := st2.onStack.filter (fun x => !((U ++ [v]).contains x))
            components := st2.components ++ [U ++ [v]] } := by
      simp only [tarjanExit, hpop, if_true, hpopeq]
    rw [hexit]
    have hstack2 : st2.stack = (U ++ [v]) ++ st.stack := by
      rw [hUeq, List.append_assoc]
      rfl
    have hstack2_nodup : st2.stack.Nodup := inv.wf.disjoint.of_append_right
    have hdisjC : ∀ x ∈ st.stack, x ∉ U ++ [v] := by
      intro x hx hmem
      rw [hstack2] at hstack2_nodup
      exact (List.disjoint_of_nodup_append hstack2_nodup) hmem hx
    have hCsub : ∀ x ∈ U ++ [v], x ∈ st2.stack := by
      intro x hx
      rw [hstack2]
      exact List.mem_append_left _ hx
    refine ⟨?_, ?_, ?_, inv.v_idx, inv.counter_ge, inv.idx_new_ge, ?_, ?_, ?_, ?_, ?_, ?_⟩
    · -- well-formedness after the pop
      refine ⟨?_, ?_, ?_, ?_, ?_, ?_, ?_, inv.wf.low_some⟩
      · intro x hx
        refine inv.wf.stack_indexed x ?_
        rw [hstack2]
        exact List.mem_append_right _ hx
      · exact hwf.stack_lt
      · intro x
        simp only [List.mem_filter, Bool.not_eq_true', ← Bool.not_eq_true]
        constructor
        · rintro ⟨hon, hnc⟩
          have hxs2 : x ∈ st2.stack := (inv.wf.onStack_iff x).mp hon
          rw [hstack2] at hxs2
          rcases List.mem_append.mp hxs2 with hxC | hxst
          · exfalso
            have : (U ++ [v]).contains x = true := List.elem_eq_true_of_mem hxC
            rw [this] at hnc
            simp at hnc
          · exact hxst
        · intro hx
          refine ⟨(inv.wf.onStack_iff x).mpr ?_, ?_⟩
          · rw [hstack2]
            exact List.mem_append_right _ hx
          · have : x ∉ U ++ [v] := hdisjC x hx
            simp only [Bool.not_eq_true]
            rw [← Bool.not_eq_true]
            intro hc
            exact this (List.mem_of_elem_eq_true hc)
      · intro C hC
        rcases List.mem_append.mp hC with hC1 | hC2
        · exact inv.wf.comp_lt C hC1
        · rw [List.mem_singleton] at hC2
          subst hC2
          intro x hx
          rcases List.mem_append.mp hx with hxU | hxv
          · exact inv.wf.stack_lt x (hCsub x (List.mem_append_left _ hxU))
          · rw [List.mem_singleton] at hxv
            subst hxv
            exact hv
      · intro x hx
        rw [List.flatten_append] at hx
        rcases List.mem_append.mp hx with hx1 | hx2
        · exact inv.wf.flatten_indexed x hx1
        · simp only [List.flatten_cons, List.flatten_nil, List.append_nil] at hx2
          exact inv.wf.stack_indexed x (hCsub x hx2)
      · rw [List.flatten_append]
        simp only [List.flatten_cons, List.flatten_nil, List.append_nil]
        rw [List.append_assoc, ← hstack2]
        exact inv.wf.disjoint
      · intro x hx
        rcases inv.wf.covered x hx with h1 | h2
        · left
          rw [List.flatten_append]
          exact List.mem_append_left _ h1
        · rw [hstack2] at h2
          rcases List.mem_append.mp h2 with hC | hs
          · left
            rw [List.flatten_append]
            refine List.mem_append_right _ ?_
            simpa using hC
          · exact Or.inr hs
    · exact inv.idx_pres
    · exact inv.low_pres
    · exact ⟨[], rfl, by simp, Or.inl rfl⟩
    · refine ⟨N ++ [U ++ [v]], ?_, ?_⟩
      · show st2.components ++ [U ++ [v]] = st.components ++ (N ++ [U ++ [v]])
        rw [hNeq, List.append_assoc]
      · intro C hC
        rcases List.mem_append.mp hC with hC1 | hC2
        · exact hNmem C hC1
        · rw [List.mem_singleton] at hC2
          subst hC2
          refine ⟨by simp, ?_, ?_⟩
          · intro x hx
            rcases List.mem_append.mp hx with hxU | hxv
            · exact (hUmem x hxU).1
            · rw [List.mem_singleton] at hxv
              subst hxv
              exact hvs
          · intro hlen
            have hUne : U ≠ [] := by
              intro h
              rw [h] at hlen
              simp at hlen
            rcases hUlast with h | ⟨w', hw'last, hw'adj⟩
            · exact absurd h hUne
            · refine ⟨v, List.mem_append_right _ (List.mem_singleton.mpr rfl), w', ?_, hw'adj⟩
              exact List.mem_append_left _ (List.mem_of_mem_getLast? hw'last)
    · intro m hstack hmc
      exact inv.low_v_ge m hstack hmc
    · exact inv.low_v_le
    · exact inv.un_lt
    · intro h
      exact h
  · -- no pop: v stays on the stack, at the bottom of the pushed region
    have hexit : tarjanExit v st2 = st2 := by
      simp only [tarjanExit, hpop, if_false]
    rw [hexit]
    refine ⟨inv.wf, inv.idx_pres, inv.low_pres, inv.v_idx, inv.counter_ge, inv.idx_new_ge,
      ?_, ⟨N, hNeq, hNmem⟩, inv.low_v_ge, inv.low_v_le, inv.un_lt, ?_⟩
    · refine ⟨U ++ [v], ?_, ?_, Or.inr ?_⟩
      · rw [hUeq, List.append_assoc]
        rfl
      · intro x hx
        rcases List.mem_append.mp hx with hxU | hxv
        · exact (hUmem x hxU).1
        · rw [List.mem_singleton] at hxv
          subst hxv
          exact hvs
      · exact List.getLast?_concat U
    · intro hstnil
      exfalso
      have hge : st.counter ≤ getLow st2 v := by
        refine inv.low_v_ge st.counter ?_ (Nat.le_refl _)
        intro x hx
        rw [hstnil] at hx
        exact absurd hx (List.not_mem_nil x)
      rw [hgl] at hge
      have hle := inv.low_v_le
      rw [hgl] at hle
      have hleq : l = st.counter := le_antisymm hle hge
      exact hpop (by rw [hl, hleq, inv.v_idx])

theorem unIndexedCount_pos (n : ℕ) (st : TarjanSt) (v : ℕ) (hv : v < n)
    (hnone : (st.indexMap v).isNone) : 1 ≤ unIndexedCount n st := by
  unfold unIndexedCount
  have hvmem : v ∈ (List.range n).filter (fun x => (st.indexMap x).isNone) := by
    rw [List.mem_filter]
    exact ⟨List.mem_range.mpr hv, hnone⟩
  have := List.length_pos.mpr (List.ne_nil_of_mem hvmem)
  omega

theorem strongconnect_spec (adj : ℕ → List ℕ) (n : ℕ)
    (hadj : ∀ i, ∀ j ∈ adj i, j < n) :
    ∀ (fuel : ℕ) (v : ℕ) (st : TarjanSt), TarjanWF n st → v < n →
      (st.indexMap v).isNone → unIndexedCount n st ≤ fuel →
      SCSpec adj n v st (strongconnect adj fuel v st) := by
  intro fuel
  induction fuel with
  | zero =>
    intro v st hwf hv hnone hfuel
    exfalso
    have := unIndexedCount_pos n st v hv hnone
    omega
  | succ f ih =>
    intro v st hwf hv hnone hfuel
    have hloop := scLoop_loopInv adj n v st f hadj hwf hnone
      (fun w stc hw1 hw2 hw3 hw4 => ih w stc hw1 hw2 hw3 hw4) hfuel
      (adj v) (tarjanEnter v st) (fun w hw => hw)
      (tarjanEnter_loopInv adj n v st hwf hv hnone)
    exact tarjanExit_spec adj n v st _ hwf hv hnone hloop

/-- Postcondition of the outer vertex loop of `tarjans_scc`. -/
theorem tarjan_fold_spec (adj : ℕ → List ℕ) (n : ℕ)
    (hadj : ∀ i, ∀ j ∈ adj i, j < n) :
    ∀ (l : List ℕ) (st : TarjanSt), TarjanWF n st → (∀ x ∈ l, x < n) → st.stack = [] →
      TarjanWF n (l.foldl
        (fun s v => if (s.indexMap v).isNone then strongconnect adj n v s else s) st) ∧
      (l.foldl (fun s v => if (s.indexMap v).isNone then strongconnect adj n v s else s)
          st).stack = [] ∧
      (∀ x, (st.indexMap x).isSome →
        ((l.foldl (fun s v => if (s.indexMap v).isNone then strongconnect adj n v s else s)
          st).indexMap x).isSome) ∧
      (∀ x ∈ l,
        ((l.foldl (fun s v => if (s.indexMap v).isNone then strongconnect adj n v s else s)
          st).indexMap x).isSome) ∧
      (∃ N, (l.foldl (fun s v => if (s.indexMap v).isNone then strongconnect adj n v s else s)
          st).components = st.components ++ N ∧
        ∀ C ∈ N, C ≠ [] ∧ (2 ≤ C.length → ∃ a ∈ C, ∃ b ∈ C, b ∈ adj a)) := by
  intro l
  induction l with
  | nil =>
    intro st hwf _ hnil
    exact ⟨hwf, hnil, fun x hx => hx, by simp, ⟨[], by simp, by simp⟩⟩
  | cons v rest ih =>
    intro st hwf hlt hnil
    have hvlt : v < n := hlt v (List.mem_cons_self v rest)
    by_cases hidx : (st.indexMap v).isNone
    · have hfuel : unIndexedCount n st ≤ n := by
        unfold unIndexedCount
        have := List.length_filter_le (fun x => (st.indexMap x).isNone) (List.range n)
        simpa using this
      have spec := strongconnect_spec adj n hadj n v st hwf hvlt hidx hfuel
      have hstack' : (strongconnect adj n v st).stack = [] := spec.stack_empty hnil
      obtain ⟨hwf', hstk', hpres', hall', N', hN'eq, hN'mem⟩ :=
        ih (strongconnect adj n v st) spec.wf
          (fun x hx => hlt x (List.mem_cons_of_mem v hx)) hstack'
      have hfold : (v :: rest).foldl
          (fun s w => if (s.indexMap w).isNone then strongconnect adj n w s else s) st =
          rest.foldl
            (fun s w => if (s.indexMap w).isNone then strongconnect adj n w s else s)
            (strongconnect adj n v st) := by
        have hidx' : st.indexMap v = none := Option.isNone_iff_eq_none.mp hidx
        simp [List.foldl_cons, hidx']
      rw [hfold]
      refine ⟨hwf', hstk', ?_, ?_, ?_⟩
      · intro x hx
        refine hpres' x ?_
        rw [spec.idx_pres x hx]
        exact hx
      · intro x hx
        rcases List.mem_cons.mp hx with rfl | hxr
        · refine hpres' x ?_
          rw [spec.v_idx]
          rfl
        · exact hall' x hxr
      · obtain ⟨N0, hN0eq, hN0mem⟩ := spec.comps_split
        refine ⟨N0 ++ N', ?_, ?_⟩
        · rw [hN'eq, hN0eq, List.append_assoc]
        · intro C hC
          rcases List.mem_append.mp hC with h1 | h2
          · obtain ⟨hne, -, hedge⟩ := hN0mem C h1
            exact ⟨hne, hedge⟩
          · exact hN'mem C h2
    · have hfold : (v :: rest).foldl
          (fun s w => if (s.indexMap w).isNone then strongconnect adj n w s else s) st =
          rest.foldl
            (fun s w => if (s.indexMap w).isNone then strongconnect adj n w s else s) st := by
        have hidx' : ¬ st.indexMap v = none := fun h => hidx (Option.isNone_iff_eq_none.mpr h)
        simp [List.foldl_cons, hidx']
      rw [hfold]
      obtain ⟨hwf', hstk', hpres', hall', N', hN'eq, hN'mem⟩ :=
        ih st hwf (fun x hx => hlt x (List.mem_cons_of_mem v hx)) hnil
      refine ⟨hwf', hstk', hpres', ?_, ⟨N', hN'eq, hN'mem⟩⟩
      intro x hx
      rcases List.mem_cons.mp hx with rfl | hxr
      · refine hpres' x ?_
        rw [Option.isNone_iff_eq_none] at hidx
        rw [Option.isSome_iff_ne_none]
        exact fun h => hidx h
      · exact hall' x hxr

theorem tarjanInit_wf (n : ℕ) : TarjanWF n tarjanInit := by
  refine ⟨?_, ?_, ?_, ?_, ?_, ?_, ?_, ?_⟩ <;> simp [tarjanInit]

/-- The components emitted by `tarjans_scc` partition the vertex set: their
concatenation is a permutation of `0..n-1`. -/
theorem tarjans_scc_flatten_perm (n : ℕ) (A : ℕ → ℕ → ℚ) :
    (tarjans_scc n A).flatten.Perm (List.range n) := by
  have hadj : ∀ i, ∀ j ∈ tarjanAdj n A i, j < n := by
    intro i j hj
    rw [tarjanAdj, List.mem_filter] at hj
    exact List.mem_range.mp hj.1
  obtain ⟨hwf', hstk', -, hall', -⟩ :=
    tarjan_fold_spec (tarjanAdj n A) n hadj (List.range n) tarjanInit (tarjanInit_wf n)
      (fun x hx => List.mem_range.mp hx) rfl
  have hnodup : (tarjans_scc n A).flatten.Nodup := by
    have := hwf'.disjoint
    rw [hstk', List.append_nil] at this
    exact this
  refine (List.perm_ext_iff_of_nodup hnodup (List.nodup_range n)).mpr ?_
  intro a
  constructor
  · intro ha
    obtain ⟨C, hC, haC⟩ := List.mem_flatten.mp ha
    exact List.mem_range.mpr (hwf'.comp_lt C hC a haC)
  · intro ha
    have hsome := hall' a ha
    rcases hwf'.covered a hsome with h | h
    · exact h
    · rw [hstk'] at h
      exact absurd h (List.not_mem_nil a)

/-- Every multi-vertex component of `tarjans_scc` contains an edge of the
matrix: the vertex adjacent to the root on the stack is a direct successor
of the root.  (In particular `rcWmax` is positive on every
`rank_centrality` call that `compute_rankings_from_state` makes, so the
`ℚ`-total division in `rcP` never hides a numpy division by zero.) -/
theorem tarjans_scc_internal_edge (n : ℕ) (A : ℕ → ℕ → ℚ) :
    ∀ C ∈ tarjans_scc n A, C ≠ [] ∧
      (2 ≤ C.length → ∃ a ∈ C, ∃ b ∈ C, 0 < A a b ∧ a ≠ b) := by
  have hadj : ∀ i, ∀ j ∈ tarjanAdj n A i, j < n := by
    intro i j hj
    rw [tarjanAdj, List.mem_filter] at hj
    exact List.mem_range.mp hj.1
  obtain ⟨-, -, -, -, N, hNeq, hNmem⟩ :=
    tarjan_fold_spec (tarjanAdj n A) n hadj (List.range n) tarjanInit (tarjanInit_wf n)
      (fun x hx => List.mem_range.mp hx) rfl
  intro C hC
  rw [show tarjans_scc n A = N from by rw [tarjans_scc]; rw [hNeq]; rfl] at hC
  obtain ⟨hne, hedge⟩ := hNmem C hC
  refine ⟨hne, fun hlen => ?_⟩
  obtain ⟨a, ha, b, hb, hab⟩ := hedge hlen
  rw [tarjanAdj, List.mem_filter] at hab
  have h2 := hab.2
  rw [Bool.and_eq_true, decide_eq_true_eq, decide_eq_true_eq] at h2
  exact ⟨a, ha, b, hb, h2.1, h2.2⟩

/-! ## Structure of the ranking output -/

theorem map_enum_getD (l : List β) (f : ℕ → β → γ) (d : β) :
    l.enum.map (fun p => f p.1 p.2) =
      (List.range l.length).map (fun i => f i (l.getD i d)) := by
  apply List.ext_getElem
  · simp
  · intro i h1 h2
    simp only [List.getElem_map, List.getElem_enum, List.getElem_range]
    congr 1
    rw [List.getD_eq_getElem]

theorem range_map_getD (l : List α) (d : α) :
    (List.range l.length).map (fun i => l.getD i d) = l := by
  apply List.ext_getElem
  · simp
  · intro i h1 h2
    simp only [List.getElem_map, List.getElem_range]
    rw [List.getD_eq_getElem]

theorem enum_map_fst_add_one (l : List α) :
    l.enum.map (fun p => p.1 + 1) = List.range' 1 l.length := by
  apply List.ext_getElem
  · simp
  · intro i h1 h2
    simp only [List.getElem_map, List.getElem_enum, List.getElem_range']
    omega

theorem enum_map_snd_comp (l : List α) (g : α → γ) :
    l.enum.map (fun p => g p.2) = l.map g := by
  have h1 : l.enum.map (fun p => g p.2) = (l.enum.map Prod.snd).map g := by
    rw [List.map_map]
    rfl
  rw [h1, List.enum_map_snd]

theorem pairwise_enum_of_pairwise (l : List α) (S : α → α → Prop)
    (h : l.Pairwise S) : l.enum.Pairwise (fun p q => S p.2 q.2) := by
  have h2 : (l.enum.map Prod.snd).Pairwise S := by
    rw [List.enum_map_snd]
    exact h
  exact (List.pairwise_map.mp h2)

theorem filter_flatten_blocks (g : ℕ → List α) (p : α → ℕ) (c : ℕ)
    [DecidableEq α]
    (hg : ∀ i, ∀ e ∈ g i, p e = i) :
    ∀ (idxs : List ℕ), idxs.Nodup →
      ((idxs.map g).flatten.filter (fun e => p e = c)) = if c ∈ idxs then g c else [] := by
  intro idxs
  induction idxs with
  | nil => simp
  | cons i rest ih =>
    intro hnodup
    rcases List.nodup_cons.mp hnodup with ⟨hinotin, hrest⟩
    rw [List.map_cons, List.flatten_cons, List.filter_append, ih hrest]
    by_cases hic : i = c
    · subst hic
      have hfull : (g i).filter (fun e => decide (p e = i)) = g i := by
        rw [List.filter_eq_self]
        intro e he
        simp [hg i e he]
      have hnomem : i ∉ rest := hinotin
      simp [hfull, hnomem]
    · have hempty : (g i).filter (fun e => decide (p e = c)) = [] := by
        rw [List.filter_eq_nil_iff]
        intro e he
        simp [hg i e he, hic]
      have hmemiff : (c ∈ i :: rest) ↔ (c ∈ rest) := by
        simp only [List.mem_cons]
        constructor
        · rintro (rfl | h)
          · exact absurd rfl (fun h' => hic h'.symm)
          · exact h
        · exact Or.inr
      rw [hempty]
      by_cases hcr : c ∈ rest <;> simp [hcr, hmemiff, hic]

theorem rankComponent_nil (titles : List String) (A : ℕ → ℕ → ℚ) (cid : ℕ) :
    rankComponent titles A cid [] = [] := rfl

theorem rankComponent_single (titles : List String) (A : ℕ → ℕ → ℚ) (cid idx : ℕ) :
    rankComponent titles A cid [idx] = [(titles.getD idx "", 1, 1, cid)] := rfl

theorem rankComponent_multi (titles : List String) (A : ℕ → ℕ → ℚ) (cid : ℕ)
    (a b : ℕ) (rest : List ℕ) :
    rankComponent titles A cid (a :: b :: rest) =
      (stableSort
          (fun i j => decide (rank_centrality (a :: b :: rest).length
              (fun i j => A ((a :: b :: rest).getD i 0) ((a :: b :: rest).getD j 0)) j ≤
            rank_centrality (a :: b :: rest).length
              (fun i j => A ((a :: b :: rest).getD i 0) ((a :: b :: rest).getD j 0)) i))
          (List.range (a :: b :: rest).length)).enum.map
        (fun p => (titles.getD ((a :: b :: rest).getD p.2 0) "",
          rank_centrality (a :: b :: rest).length
            (fun i j => A ((a :: b :: rest).getD i 0) ((a :: b :: rest).getD j 0)) p.2,
          p.1 + 1, cid)) := rfl

theorem rankComponent_cid (titles : List String) (A : ℕ → ℕ → ℚ) (cid : ℕ)
    (comp : List ℕ) : ∀ e ∈ rankComponent titles A cid comp, e.2.2.2 = cid := by
  intro e he
  match comp with
  | [] =>
    rw [rankComponent_nil] at he
    exact absurd he (List.not_mem_nil e)
  | [idx] =>
    rw [rankComponent_single, List.mem_singleton] at he
    rw [he]
  | a :: b :: rest =>
    rw [rankComponent_multi] at he
    obtain ⟨p, -, hpe⟩ := List.mem_map.mp he
    rw [← hpe]

theorem rankComponent_ranks (titles : List String) (A : ℕ → ℕ → ℚ) (cid : ℕ)
    (comp : List ℕ) :
    (rankComponent titles A cid comp).map (fun e => e.2.2.1) =
      List.range' 1 (rankComponent titles A cid comp).length := by
  match comp with
  | [] => rw [rankComponent_nil]; rfl
  | [idx] => rw [rankComponent_single]; rfl
  | a :: b :: rest =>
    rw [rankComponent_multi]
    rw [List.map_map, List.length_map, List.enum_length]
    exact enum_map_fst_add_one _

theorem enum_map_eval_snd (l : List α) (f : ℕ × α → γ) (g : α → γ)
    (h : ∀ i x, f (i, x) = g x) : l.enum.map f = l.map g := by
  apply List.ext_getElem
  · simp
  · intro i h1 h2
    simp [List.getElem_enum, h]

theorem rankComponent_titles_perm (titles : List String) (A : ℕ → ℕ → ℚ) (cid : ℕ)
    (comp : List ℕ) :
    ((rankComponent titles A cid comp).map (fun e => e.1)).Perm
      (comp.map (fun i => titles.getD i "")) := by
  match comp with
  | [] => rw [rankComponent_nil]; exact List.Perm.refl _
  | [idx] => rw [rankComponent_single]; exact List.Perm.refl _
  | a :: b :: rest =>
    rw [rankComponent_multi, List.map_map]
    rw [enum_map_eval_snd _ _ (fun s => titles.getD ((a :: b :: rest).getD s 0) "")
      (fun i x => rfl)]
    refine (List.Perm.map _ (stableSort_perm _ _)).trans ?_
    have h4 : (List.range (a :: b :: rest).length).map
        (fun s => titles.getD ((a :: b :: rest).getD s 0) "") =
        ((List.range (a :: b :: rest).length).map
          (fun s => (a :: b :: rest).getD s 0)).map (fun i => titles.getD i "") := by
      rw [List.map_map]
      rfl
    rw [h4, range_map_getD]

theorem rankComponent_score_sum (titles : List String) (A : ℕ → ℕ → ℚ) (cid : ℕ)
    (comp : List ℕ) (hne : comp ≠ []) :
    ((rankComponent titles A cid comp).map (fun e => e.2.1)).sum = 1 := by
  match comp with
  | [idx] =>
    rw [rankComponent_single]
    simp
  | a :: b :: rest =>
    rw [rankComponent_multi, List.map_map]
    rw [enum_map_eval_snd _ _
      (fun s => rank_centrality (a :: b :: rest).length
        (fun i j => A ((a :: b :: rest).getD i 0) ((a :: b :: rest).getD j 0)) s)
      (fun i x => rfl)]
    rw [List.Perm.sum_eq (List.Perm.map _ (stableSort_perm _ _))]
    rw [list_sum_range_eq_finset_sum]
    exact rank_centrality_sum _ _ (by simp)

theorem rankComponent_sorted (titles : List String) (A : ℕ → ℕ → ℚ) (cid : ℕ)
    (comp : List ℕ) :
    (rankComponent titles A cid comp).Pairwise (fun e1 e2 => e2.2.1 ≤ e1.2.1) := by
  match comp with
  | [] => rw [rankComponent_nil]; exact List.Pairwise.nil
  | [idx] => rw [rankComponent_single]; simp
  | a :: b :: rest =>
    rw [rankComponent_multi, List.pairwise_map]
    refine pairwise_enum_of_pairwise _
      (fun x y => rank_centrality (a :: b :: rest).length
          (fun i j => A ((a :: b :: rest).getD i 0) ((a :: b :: rest).getD j 0)) y ≤
        rank_centrality (a :: b :: rest).length
          (fun i j => A ((a :: b :: rest).getD i 0) ((a :: b :: rest).getD j 0)) x) ?_
    have hs := stableSort_sorted
      (fun i j => decide (rank_centrality (a :: b :: rest).length
          (fun i j => A ((a :: b :: rest).getD i 0) ((a :: b :: rest).getD j 0)) j ≤
        rank_centrality (a :: b :: rest).length
          (fun i j => A ((a :: b :: rest).getD i 0) ((a :: b :: rest).getD j 0)) i))
      (fun x y => by
        rcases le_total
          (rank_centrality (a :: b :: rest).length
            (fun i j => A ((a :: b :: rest).getD i 0) ((a :: b :: rest).getD j 0)) y)
          (rank_centrality (a :: b :: rest).length
            (fun i j => A ((a :: b :: rest).getD i 0) ((a :: b :: rest).getD j 0)) x)
          with h | h
        · exact Or.inl (decide_eq_true h)
        · exact Or.inr (decide_eq_true h))
      (fun x y z hxy hyz => by
        have h1 := of_decide_eq_true hxy
        have h2 := of_decide_eq_true hyz
        exact decide_eq_true (le_trans h2 h1))
      (List.range (a :: b :: rest).length)
    exact hs.imp (fun hij => of_decide_eq_true hij)

/-- Abbreviations for the slices `compute_rankings_from_state` builds
internally (`item_titles`, the comparison matrix, the SCC list). -/
def rkTitles (st : State) (hashtag : String) : List String :=
  sortStrings (candidateKeys st hashtag)

def rkA (st : State) (hashtag attrName : String) : ℕ → ℕ → ℚ :=
  buildA (rkTitles st hashtag) (filteredVotes st hashtag attrName)

def rkComps (st : State) (hashtag attrName : String) : List (List ℕ) :=
  tarjans_scc (rkTitles st hashtag).length (rkA st hashtag attrName)

theorem isEmpty_false_of_ne_nil {l : List α} (h : l ≠ []) : l.isEmpty = false := by
  cases l with
  | nil => exact absurd rfl h
  | cons x xs => rfl

theorem candidateKeys_ne_nil_items {st : State} {h : String}
    (hc : candidateKeys st h ≠ []) : st.items.isEmpty = false := by
  cases hi : st.items with
  | nil =>
    exfalso
    apply hc
    rw [candidateKeys, hi]
    rfl
  | cons x xs => rfl

theorem compute_rankings_no_cands (st : State) (h a : String)
    (hc : candidateKeys st h = []) : compute_rankings_from_state st h a = [] := by
  rw [compute_rankings_from_state]
  by_cases hi : st.items.isEmpty = true
  · rw [if_pos hi]
  · rw [if_neg hi, hc]
    rfl

theorem compute_rankings_no_votes (st : State) (h a : String)
    (hc : candidateKeys st h ≠ []) (hv : filteredVotes st h a = []) :
    compute_rankings_from_state st h a =
      (sortStrings (candidateKeys st h)).enum.map
        (fun p => (p.2, 1 / ((candidateKeys st h).length : ℚ), 1, p.1)) := by
  rw [compute_rankings_from_state]
  rw [if_neg (by rw [candidateKeys_ne_nil_items hc]; exact Bool.false_ne_true)]
  rw [if_neg (by rw [isEmpty_false_of_ne_nil hc]; exact Bool.false_ne_true)]
  rw [if_pos (by rw [hv]; rfl)]

theorem compute_rankings_votes (st : State) (h a : String)
    (hc : candidateKeys st h ≠ []) (hv : filteredVotes st h a ≠ []) :
    compute_rankings_from_state st h a =
      ((rkComps st h a).enum.map
        (fun ci => rankComponent (rkTitles st h) (rkA st h a) ci.1 ci.2)).flatten := by
  rw [compute_rankings_from_state]
  rw [if_neg (by rw [candidateKeys_ne_nil_items hc]; exact Bool.false_ne_true)]
  rw [if_neg (by rw [isEmpty_false_of_ne_nil hc]; exact Bool.false_ne_true)]
  rw [if_neg (by rw [isEmpty_false_of_ne_nil hv]; exact Bool.false_ne_true)]
  rfl

theorem flatten_singleton_map (l : List α) (g : α → β) :
    (l.map (fun x => [g x])).flatten = l.map g := by
  induction l with
  | nil => rfl
  | cons x xs ih => simp [ih]

theorem flatten_perm_of_forall2 (L1 L2 : List (List α))
    (h : List.Forall₂ (fun x y => x.Perm y) L1 L2) : L1.flatten.Perm L2.flatten := by
  induction h with
  | nil => exact List.Perm.refl _
  | cons hxy _ ih =>
    simp only [List.flatten_cons]
    exact hxy.append ih

theorem forall2_map_map (f1 f2 : α → List β) (P : List β → List β → Prop) :
    ∀ l : List α, (∀ i ∈ l, P (f1 i) (f2 i)) →
      List.Forall₂ P (l.map f1) (l.map f2) := by
  intro l
  induction l with
  | nil => intro _; exact List.Forall₂.nil
  | cons x xs ih =>
    intro hp
    exact List.Forall₂.cons (hp x (List.mem_cons_self x xs))
      (ih (fun i hi => hp i (List.mem_cons_of_mem x hi)))

theorem enum_map_eval (l : List β) (f : ℕ × β → γ) (g : ℕ → β → γ) (d : β)
    (hf : ∀ i x, f (i, x) = g i x) :
    l.enum.map f = (List.range l.length).map (fun i => g i (l.getD i d)) := by
  apply List.ext_getElem
  · simp
  · intro i h1 h2
    simp only [List.getElem_map, List.getElem_enum, List.getElem_range, hf]
    congr 1
    rw [List.getD_eq_getElem]

theorem compute_filter_votes (st : State) (h a : String)
    (hc : candidateKeys st h ≠ []) (hv : filteredVotes st h a ≠ []) (c : ℕ) :
    (compute_rankings_from_state st h a).filter (fun e => e.2.2.2 = c) =
      if c < (rkComps st h a).length
      then rankComponent (rkTitles st h) (rkA st h a) c ((rkComps st h a).getD c [])
      else [] := by
  rw [compute_rankings_votes st h a hc hv]
  rw [enum_map_eval _ _
    (fun i comp => rankComponent (rkTitles st h) (rkA st h a) i comp) [] (fun i x => rfl)]
  rw [filter_flatten_blocks
    (fun i => rankComponent (rkTitles st h) (rkA st h a) i ((rkComps st h a).getD i []))
    (fun e => e.2.2.2) c
    (fun i => rankComponent_cid (rkTitles st h) (rkA st h a) i ((rkComps st h a).getD i []))
    (List.range (rkComps st h a).length) (List.nodup_range _)]
  by_cases hcl : c < (rkComps st h a).length
  · rw [if_pos (List.mem_range.mpr hcl), if_pos hcl]
  · rw [if_neg (fun hm => hcl (List.mem_range.mp hm)), if_neg hcl]

theorem compute_filter_no_votes (st : State) (h a : String)
    (hc : candidateKeys st h ≠ []) (hv : filteredVotes st h a = []) (c : ℕ) :
    (compute_rankings_from_state st h a).filter (fun e => e.2.2.2 = c) =
      if c < (rkTitles st h).length
      then [((rkTitles st h).getD c "", 1 / ((candidateKeys st h).length : ℚ), 1, c)]
      else [] := by
  rw [compute_rankings_no_votes st h a hc hv]
  rw [enum_map_eval _ _
    (fun i t => ((t : String), 1 / ((candidateKeys st h).length : ℚ), 1, i)) "" (fun i x => rfl)]
  rw [← flatten_singleton_map (List.range (sortStrings (candidateKeys st h)).length)
    (fun i => (((sortStrings (candidateKeys st h)).getD i "" : String),
      1 / ((candidateKeys st h).length : ℚ), 1, i))]
  rw [filter_flatten_blocks
    (fun i => [(((sortStrings (candidateKeys st h)).getD i "" : String),
      1 / ((candidateKeys st h).length : ℚ), 1, i)])
    (fun e => e.2.2.2) c
    (fun i e he => by
      rw [List.mem_singleton] at he
      rw [he])
    (List.range (sortStrings (candidateKeys st h)).length) (List.nodup_range _)]
  rw [show sortStrings (candidateKeys st h) = rkTitles st h from rfl]
  by_cases hcl : c < (rkTitles st h).length
  · rw [if_pos (List.mem_range.mpr hcl), if_pos hcl]
  · rw [if_neg (fun hm => hcl (List.mem_range.mp hm)), if_neg hcl]

/-- The titles in the ranking output are a permutation of the sorted
candidate titles, in every branch of `compute_rankings_from_state`. -/
theorem compute_titles_perm (st : State) (h a : String) :
    ((compute_rankings_from_state st h a).map (fun e => e.1)).Perm (rkTitles st h) := by
  by_cases hc : candidateKeys st h = []
  · rw [compute_rankings_no_cands st h a hc, rkTitles, hc]
    exact List.Perm.refl _
  · by_cases hv : filteredVotes st h a = []
    · rw [compute_rankings_no_votes st h a hc hv, List.map_map]
      rw [enum_map_eval_snd _ _ (fun t => t) (fun i x => rfl), List.map_id']
      exact List.Perm.refl _
    · rw [compute_rankings_votes st h a hc hv]
      rw [List.map_flatten, List.map_map]
      rw [enum_map_eval _ _
        (fun i comp => (rankComponent (rkTitles st h) (rkA st h a) i comp).map (fun e => e.1))
        [] (fun i x => rfl)]
      refine (flatten_perm_of_forall2 _
        ((List.range (rkComps st h a).length).map
          (fun i => ((rkComps st h a).getD i []).map (fun j => (rkTitles st h).getD j "")))
        (forall2_map_map _ _ _ _ (fun i _ =>
          rankComponent_titles_perm (rkTitles st h) (rkA st h a) i
            ((rkComps st h a).getD i [])))).trans ?_
      have h1 : (List.range (rkComps st h a).length).map
          (fun i => ((rkComps st h a).getD i []).map (fun j => (rkTitles st h).getD j "")) =
          ((List.range (rkComps st h a).length).map
            (fun i => (rkComps st h a).getD i [])).map
              (List.map (fun j => (rkTitles st h).getD j "")) := by
        rw [List.map_map]
        rfl
      rw [h1, range_map_getD, ← List.map_flatten]
      refine (List.Perm.map _ (tarjans_scc_flatten_perm (rkTitles st h).length
        (rkA st h a))).trans ?_
      rw [range_map_getD]

/-- C7 (amended): in every ranking result the titles are a permutation of
the candidates (each candidate appears in exactly one component entry), the
ranks within each component are exactly 1..k, and the scores within a
component sum to exactly 1 whenever at least one filtered vote exists; in
the no-votes path every entry's score is 1/|candidates| instead (so a
component's scores sum to 1/|candidates|, not 1). -/
theorem C7_ranking_shape (st : State) (h a : String) (c : ℕ) :
    ((compute_rankings_from_state st h a).map (fun e => e.1)).Perm
      (sortStrings (candidateKeys st h)) ∧
    ((compute_rankings_from_state st h a).filter (fun e => e.2.2.2 = c)).map
        (fun e => e.2.2.1) =
      List.range' 1
        ((compute_rankings_from_state st h a).filter (fun e => e.2.2.2 = c)).length ∧
    (filteredVotes st h a ≠ [] →
      (compute_rankings_from_state st h a).filter (fun e => e.2.2.2 = c) ≠ [] →
      (((compute_rankings_from_state st h a).filter (fun e => e.2.2.2 = c)).map
        (fun e => e.2.1)).sum = 1) ∧
    (filteredVotes st h a = [] →
      ∀ e ∈ compute_rankings_from_state st h a,
        e.2.1 = 1 / ((candidateKeys st h).length : ℚ)) := by
  refine ⟨compute_titles_perm st h a, ?_, ?_, ?_⟩
  · -- ranks are 1..k within each component
    by_cases hc : candidateKeys st h = []
    · rw [compute_rankings_no_cands st h a hc]
      rfl
    · by_cases hv : filteredVotes st h a = []
      · rw [compute_filter_no_votes st h a hc hv c]
        by_cases hcl : c < (rkTitles st h).length
        · rw [if_pos hcl]
          rfl
        · rw [if_neg hcl]
          rfl
      · rw [compute_filter_votes st h a hc hv c]
        by_cases hcl : c < (rkComps st h a).length
        · rw [if_pos hcl]
          exact rankComponent_ranks _ _ _ _
        · rw [if_neg hcl]
          rfl
  · -- with votes, each nonempty component's scores sum to 1
    intro hv hne
    have hc : candidateKeys st h ≠ [] := by
      intro hcnil
      rw [compute_rankings_no_cands st h a hcnil] at hne
      exact hne rfl
    rw [compute_filter_votes st h a hc hv c] at hne ⊢
    by_cases hcl : c < (rkComps st h a).length
    · rw [if_pos hcl] at hne ⊢
      refine rankComponent_score_sum _ _ _ _ ?_
      have hmem : (rkComps st h a).getD c [] ∈ rkComps st h a := by
        rw [List.getD_eq_getElem _ _ hcl]
        exact List.getElem_mem hcl
      exact (tarjans_scc_internal_edge (rkTitles st h).length (rkA st h a) _ hmem).1
    · rw [if_neg hcl] at hne
      exact absurd rfl hne
  · -- no votes: every entry scores 1/|candidates|
    intro hv e he
    by_cases hc : candidateKeys st h = []
    · rw [compute_rankings_no_cands st h a hc] at he
      exact absurd he (List.not_mem_nil e)
    · rw [compute_rankings_no_votes st h a hc hv] at he
      obtain ⟨p, -, hpe⟩ := List.mem_map.mp he
      rw [← hpe]

/-- C8: an empty candidate slice yields the empty ranking, and a nonempty
candidate slice with no votes on the requested attribute yields one
singleton entry per candidate with score 1/|candidates|, rank 1, and
component id equal to the candidate's index in ascending sorted-title
order. -/
theorem C8_empty_slices (st : State) (h a : String) :
    (candidateKeys st h = [] → compute_rankings_from_state st h a = []) ∧
    (candidateKeys st h ≠ [] → filteredVotes st h a = [] →
      compute_rankings_from_state st h a =
        (sortStrings (candidateKeys st h)).enum.map
          (fun p => (p.2, 1 / ((candidateKeys st h).length : ℚ), 1, p.1))) :=
  ⟨compute_rankings_no_cands st h a, compute_rankings_no_votes st h a⟩

/-- C9 (amended): within each component the entries are emitted in
non-increasing score order; equal-score entries keep the relative order of
Tarjan's component list (Python's stable descending sort), which is not in
general ascending title order. -/
theorem C9_ties_keep_component_order (st : State) (h a : String) (c : ℕ) :
    ((compute_rankings_from_state st h a).filter (fun e => e.2.2.2 = c)).Pairwise
      (fun e1 e2 => e2.2.1 ≤ e1.2.1) := by
  by_cases hc : candidateKeys st h = []
  · rw [compute_rankings_no_cands st h a hc]
    simp
  · by_cases hv : filteredVotes st h a = []
    · rw [compute_filter_no_votes st h a hc hv c]
      by_cases hcl : c < (rkTitles st h).length
      · rw [if_pos hcl]
        simp
      · rw [if_neg hcl]
        simp
    · rw [compute_filter_votes st h a hc hv c]
      by_cases hcl : c < (rkComps st h a).length
      · rw [if_pos hcl]
        exact rankComponent_sorted _ _ _ _
      · rw [if_neg hcl]
        simp

/-- C7 counterexample: two items under the hashtag and no votes on the
attribute produce two singleton components with score 1/2 each, so the
scores within component 0 sum to 1/2, not 1 within 10⁻⁶. -/
theorem C7_counterexample_component_sum_half :
    (((compute_rankings_from_state
        ⟨[("a", ⟨"a", none, ["h"], none, none⟩), ("b", ⟨"b", none, ["h"], none, none⟩)], [], []⟩
        "h" "q").filter (fun e => e.2.2.2 = 0)).map (fun e => e.2.1)).sum = 1/2 ∧
    ¬ |(1/2 : ℚ) - 1| ≤ 1/1000000 := by
  constructor
  · have hres := compute_rankings_no_votes
      ⟨[("a", ⟨"a", none, ["h"], none, none⟩), ("b", ⟨"b", none, ["h"], none, none⟩)], [], []⟩
      "h" "q" (by decide) rfl
    have hs : sortStrings (candidateKeys
        ⟨[("a", ⟨"a", none, ["h"], none, none⟩), ("b", ⟨"b", none, ["h"], none, none⟩)], [], []⟩
        "h") = ["a", "b"] := by decide
    have hl : (candidateKeys
        ⟨[("a", ⟨"a", none, ["h"], none, none⟩), ("b", ⟨"b", none, ["h"], none, none⟩)], [], []⟩
        "h").length = 2 := by decide
    rw [hres, hs, hl]
    norm_num [List.enum, List.enumFrom, List.filter]
  · norm_num [abs]

def cexA : ℕ → ℕ → ℚ := fun i j => if (i = 1 ∧ j = 0) ∨ (i = 0 ∧ j = 1) then 1 else 0

def cexAsub : ℕ → ℕ → ℚ :=
  fun i j => cexA (([1, 0] : List ℕ).getD i 0) (([1, 0] : List ℕ).getD j 0)

theorem cexAsub_vals : cexAsub 0 0 = 0 ∧ cexAsub 0 1 = 1 ∧ cexAsub 1 0 = 1 ∧ cexAsub 1 1 = 0 := by
  refine ⟨?_, ?_, ?_, ?_⟩ <;> norm_num [cexAsub, cexA]

theorem cexW_vals : rcW cexAsub 0 1 = 1/2 ∧ rcW cexAsub 1 0 = 1/2 := by
  obtain ⟨h00, h01, h10, h11⟩ := cexAsub_vals
  constructor
  · simp only [rcW, h01, h10]
    norm_num
  · simp only [rcW, h01, h10]
    norm_num

theorem cexRow_vals : rcRowSum 2 cexAsub 0 = 1/2 ∧ rcRowSum 2 cexAsub 1 = 1/2 := by
  obtain ⟨hW01, hW10⟩ := cexW_vals
  constructor
  · simp only [rcRowSum, Finset.sum_range_succ, Finset.sum_range_zero]
    simp [hW01]
  · simp only [rcRowSum, Finset.sum_range_succ, Finset.sum_range_zero]
    simp [hW10]

theorem cexWmax : rcWmax 2 cexAsub = 1/2 := by
  obtain ⟨h0, h1⟩ := cexRow_vals
  have hr2 : List.range 2 = [0, 1] := by decide
  simp only [rcWmax, hr2, List.map_cons, List.map_nil,
    List.foldl_cons, List.foldl_nil, h0, h1]
  norm_num

theorem cexP_vals : rcP 2 cexAsub 0 0 = 0 ∧ rcP 2 cexAsub 0 1 = 1 ∧
    rcP 2 cexAsub 1 0 = 1 ∧ rcP 2 cexAsub 1 1 = 0 := by
  obtain ⟨hW01, hW10⟩ := cexW_vals
  obtain ⟨hA00, hA01, hA10, hA11⟩ := cexAsub_vals
  have hW00 : rcW cexAsub 0 0 = 0 := by simp [rcW, hA00]
  have hW11 : rcW cexAsub 1 1 = 0 := by simp [rcW, hA11]
  refine ⟨?_, ?_, ?_, ?_⟩
  · simp only [rcP, if_pos rfl, Finset.sum_range_succ, Finset.sum_range_zero, cexWmax]
    simp [hW01]
  · simp only [rcP, hW01, cexWmax]
    norm_num
  · simp only [rcP, hW10, cexWmax]
    norm_num
  · simp only [rcP, if_pos rfl, Finset.sum_range_succ, Finset.sum_range_zero, cexWmax]
    simp [hW10]

theorem cexStep_vals :
    rcStep 2 (rcP 2 cexAsub) (fun _ => 1 / ((2:ℕ) : ℚ)) 0 = 1/2 ∧
    rcStep 2 (rcP 2 cexAsub) (fun _ => 1 / ((2:ℕ) : ℚ)) 1 = 1/2 := by
  obtain ⟨hP00, hP01, hP10, hP11⟩ := cexP_vals
  constructor
  · simp only [rcStep, Finset.sum_range_succ, Finset.sum_range_zero, hP00, hP10]
    norm_num
  · simp only [rcStep, Finset.sum_range_succ, Finset.sum_range_zero, hP01, hP11]
    norm_num

theorem cexScores : rank_centrality 2 cexAsub 0 = 1/2 ∧ rank_centrality 2 cexAsub 1 = 1/2 := by
  obtain ⟨hs0, hs1⟩ := cexStep_vals
  have hcond : (∑ j in Finset.range 2,
      |rcStep 2 (rcP 2 cexAsub) (fun _ => 1 / ((2:ℕ) : ℚ)) j - (fun _ => 1 / ((2:ℕ) : ℚ)) j|)
      < rcTol := by
    simp only [Finset.sum_range_succ, Finset.sum_range_zero, hs0, hs1]
    norm_num [rcTol]
  have hiter : rank_centrality 2 cexAsub =
      rcStep 2 (rcP 2 cexAsub) (fun _ => 1 / ((2:ℕ) : ℚ)) := by
    show rcIter 2 (rcP 2 cexAsub) 100000 (fun _ => 1 / ((2:ℕ) : ℚ)) = _
    rw [show rcIter 2 (rcP 2 cexAsub) 100000 (fun _ => 1 / ((2:ℕ) : ℚ)) =
        if (∑ j in Finset.range 2,
            |rcStep 2 (rcP 2 cexAsub) (fun _ => 1 / ((2:ℕ) : ℚ)) j -
              (fun _ => 1 / ((2:ℕ) : ℚ)) j|) < rcTol
        then rcStep 2 (rcP 2 cexAsub) (fun _ => 1 / ((2:ℕ) : ℚ))
        else rcIter 2 (rcP 2 cexAsub) 99999
          (rcStep 2 (rcP 2 cexAsub) (fun _ => 1 / ((2:ℕ) : ℚ)))
      from rfl]
    rw [if_pos hcond]
  rw [hiter]
  exact ⟨hs0, hs1⟩

/-- Two items "a","b" under hashtag "h" and a single tied 1:1 vote on
attribute "q". -/
def st9 : State :=
  ⟨[("a", ⟨"a", none, ["h"], none, none⟩), ("b", ⟨"b", none, ["h"], none, none⟩)],
   [⟨"a", "b", 1, 1, some "q", none, none, none, none⟩], []⟩

/-- C9 counterexample: with two items "a" < "b" in one component and one tied
1:1 vote both get score 1/2, yet "b" receives rank 1 and "a" rank 2 — the
stable descending sort keeps Tarjan's component order, not title order. -/
theorem C9_counterexample_tied_scores_rank_against_title_order :
    compute_rankings_from_state st9 "h" "q" =
      [("b", 1/2, 1, 0), ("a", 1/2, 2, 0)] ∧
    pyStrLt "a" "b" = true := by
  constructor
  · have hres := compute_rankings_votes st9 "h" "q" (by decide) (by decide)
    have htitles : rkTitles st9 "h" = ["a", "b"] := by decide
    have hAfun : rkA st9 "h" "q" = cexA := by
      funext i j
      have hfv : filteredVotes st9 "h" "q" =
          [⟨"a", "b", 1, 1, some "q", none, none, none, none⟩] := by decide
      have hidx1 : (rkTitles st9 "h").indexOf "a" = 0 := by decide
      have hidx2 : (rkTitles st9 "h").indexOf "b" = 1 := by decide
      show buildA (rkTitles st9 "h") (filteredVotes st9 "h" "q") i j = cexA i j
      rw [hfv]
      simp only [buildA, List.foldl_cons, List.foldl_nil, hidx1, hidx2, cexA]
      by_cases h1 : i = 1 ∧ j = 0
      · obtain ⟨hi, hj⟩ := h1
        subst hi; subst hj
        norm_num
      · by_cases h2 : i = 0 ∧ j = 1
        · obtain ⟨hi, hj⟩ := h2
          subst hi; subst hj
          norm_num
        · rw [if_neg h1, if_neg h2, if_neg (by tauto)]
          norm_num
    have hcomps : rkComps st9 "h" "q" = [[1, 0]] := by
      show tarjans_scc (rkTitles st9 "h").length (rkA st9 "h" "q") = [[1, 0]]
      rw [htitles, hAfun]
      decide
    obtain ⟨hs0, hs1⟩ := cexScores
    have hle : decide (rank_centrality 2 cexAsub 1 ≤ rank_centrality 2 cexAsub 0) = true :=
      decide_eq_true (le_of_eq (hs1.trans hs0.symm))
    have hsort : stableSort
        (fun i j => decide (rank_centrality 2 cexAsub j ≤ rank_centrality 2 cexAsub i))
        (List.range 2) = [0, 1] := by
      have hr2 : List.range 2 = [0, 1] := by decide
      rw [hr2]
      simp only [stableSort, List.foldr_cons, List.foldr_nil, insertLe, hle]
      rw [if_pos trivial]
    rw [hres, hcomps, htitles, hAfun]
    show (stableSort
        (fun i j => decide (rank_centrality 2 cexAsub j ≤ rank_centrality 2 cexAsub i))
        (List.range 2)).enum.map
        (fun p => ((["a", "b"] : List String).getD (([1, 0] : List ℕ).getD p.2 0) "",
          rank_centrality 2 cexAsub p.2, p.1 + 1, 0)) ++ [] =
      [("b", 1/2, 1, 0), ("a", 1/2, 2, 0)]
    rw [hsort, List.append_nil]
    rw [show ([0, 1] : List ℕ).enum = [(0, 0), (1, 1)] from rfl]
    simp only [List.map_cons, List.map_nil, hs0, hs1]
    norm_num [List.getD_cons_zero, List.getD_cons_succ]
  · decide
